import Mathlib

/-!
Verification of the revset engine specification of the jj repository.

The engine itself (expression algebra, symbol resolver, evaluator) is
exercised by `src/lib/tests/test_revset.rs`; its implementation is not among
the provided sources, so the definitions below are modelled from the
specification (`spec.md` sections 3, 4 and 8), and validated against the
concrete scenarios asserted by the tests.

Commits are identified by their index position (a natural number); the
`AncestryIndex` assigns positions consistent with topological order, so a
commit's parents always have strictly smaller positions and the root commit
sits at position 0.
-/

/-- Modelled from the spec: a commit record as the evaluator sees it
(spec section 3, Commit / AncestryIndex). Only the parent positions and the
committer timestamp are relevant to the modelled operators. The real
`Commit` also carries ids, author data, description and a tree, which no
claim mentions. -/
structure CommitNode where
  parents : List Nat
  committer : Int
deriving DecidableEq

/-- Modelled from the spec: the external `AncestryIndex` (spec section 3):
every commit has a position consistent with topological order; position `p`
in the list holds the commit at index position `p`. -/
structure AncestryIndex where
  commits : List CommitNode
deriving DecidableEq

def AncestryIndex.size (g : AncestryIndex) : Nat := g.commits.length

/-- Parents (as index positions) of the commit at position `p`; empty when
`p` is out of range. -/
def parentsOf (g : AncestryIndex) (p : Nat) : List Nat :=
  ((g.commits.get? p).map CommitNode.parents).getD []

/-- Committer timestamp of the commit at position `p` (0 out of range). -/
def tsOf (g : AncestryIndex) (p : Nat) : Int :=
  ((g.commits.get? p).map CommitNode.committer).getD 0

/-- Children (as index positions) of the commit at position `p`. -/
def childrenOf (g : AncestryIndex) (p : Nat) : List Nat :=
  (List.range g.size).filter (fun c => (parentsOf g c).contains p)

/-- The topological-order invariant of the index: every parent's position is
strictly below its child's position (spec section 3, AncestryIndex). -/
def topoOk (g : AncestryIndex) : Bool :=
  (List.range g.size).all (fun p => (parentsOf g p).all (fun q => decide (q < p)))

/-- Fuel-bounded ancestry test: does some chain of parent edges of length at
most `fuel` lead from `b` up to `a`? -/
def ancestorFuel (g : AncestryIndex) : Nat → Nat → Nat → Bool
  | 0, a, b => a == b
  | fuel + 1, a, b => a == b || (parentsOf g b).any (fun q => ancestorFuel g fuel a q)

/-- Modelled from the spec: the index query `is_ancestor(a, b)` (spec
section 6), reflexive. Fuel `b` suffices because parent positions strictly
decrease. -/
def is_ancestor (g : AncestryIndex) (a b : Nat) : Bool :=
  ancestorFuel g b a b

theorem parentsOf_eq_nil_of_le (g : AncestryIndex) (p : Nat) (h : g.size ≤ p) :
    parentsOf g p = [] := by
  unfold parentsOf
  rw [List.get?_eq_none.mpr h]
  rfl

theorem mem_parentsOf_lt_size (g : AncestryIndex) {p q : Nat}
    (h : q ∈ parentsOf g p) : p < g.size := by
  by_contra hc
  rw [parentsOf_eq_nil_of_le g p (Nat.le_of_not_lt hc)] at h
  exact absurd h (List.not_mem_nil q)

theorem topoOk_parent_lt {g : AncestryIndex} (hg : topoOk g = true) {p q : Nat}
    (h : q ∈ parentsOf g p) : q < p := by
  have hp : p < g.size := mem_parentsOf_lt_size g h
  have := (List.all_eq_true.mp hg) p (List.mem_range.mpr hp)
  have := (List.all_eq_true.mp this) q h
  exact of_decide_eq_true this

theorem mem_childrenOf (g : AncestryIndex) {p c : Nat} :
    c ∈ childrenOf g p ↔ c < g.size ∧ p ∈ parentsOf g c := by
  unfold childrenOf
  rw [List.mem_filter, List.mem_range]
  simp [List.contains_iff_exists_mem_beq, beq_iff_eq, eq_comm]

theorem ancestorFuel_mono (g : AncestryIndex) {f f' : Nat} (hf : f ≤ f') :
    ∀ {a b : Nat}, ancestorFuel g f a b = true → ancestorFuel g f' a b = true := by
  induction f' generalizing f with
  | zero =>
    intro a b h
    have : f = 0 := Nat.le_zero.mp hf
    subst this
    exact h
  | succ n ih =>
    intro a b h
    cases f with
    | zero =>
      have : a = b := by simpa [ancestorFuel] using h
      subst this
      simp [ancestorFuel]
    | succ m =>
      simp only [ancestorFuel, Bool.or_eq_true, List.any_eq_true] at h ⊢
      rcases h with h | ⟨q, hq, hrec⟩
      · exact Or.inl h
      · exact Or.inr ⟨q, hq, ih (Nat.le_of_succ_le_succ hf) hrec⟩

theorem is_ancestor_refl (g : AncestryIndex) (a : Nat) : is_ancestor g a a = true := by
  unfold is_ancestor
  cases a with
  | zero => simp [ancestorFuel]
  | succ n => simp [ancestorFuel]

theorem ancestorFuel_le (g : AncestryIndex) (hg : topoOk g = true) :
    ∀ (f : Nat) {a b : Nat}, ancestorFuel g f a b = true → a ≤ b := by
  intro f
  induction f with
  | zero =>
    intro a b h
    exact Nat.le_of_eq (eq_of_beq h)
  | succ n ih =>
    intro a b h
    simp only [ancestorFuel, Bool.or_eq_true, List.any_eq_true] at h
    rcases h with h | ⟨q, hq, hrec⟩
    · exact Nat.le_of_eq (eq_of_beq h)
    · exact Nat.le_of_lt (Nat.lt_of_le_of_lt (ih hrec) (topoOk_parent_lt hg hq))

theorem is_ancestor_le (g : AncestryIndex) (hg : topoOk g = true) {a b : Nat}
    (h : is_ancestor g a b = true) : a ≤ b :=
  ancestorFuel_le g hg b h

/-- One upward step: a parent of `b` is an ancestor of `b`, and ancestry
extends along parent edges. -/
theorem is_ancestor_step (g : AncestryIndex) (hg : topoOk g = true) {a b q : Nat}
    (hq : q ∈ parentsOf g b) (h : is_ancestor g a q = true) :
    is_ancestor g a b = true := by
  have hqb : q < b := topoOk_parent_lt hg hq
  cases b with
  | zero => exact absurd hqb (Nat.not_lt_zero q)
  | succ n =>
    unfold is_ancestor
    simp only [ancestorFuel, Bool.or_eq_true, List.any_eq_true]
    exact Or.inr ⟨q, hq, ancestorFuel_mono g (Nat.le_of_lt_succ hqb) h⟩

theorem is_ancestor_trans (g : AncestryIndex) (hg : topoOk g = true) :
    ∀ {a b c : Nat}, is_ancestor g a b = true → is_ancestor g b c = true →
    is_ancestor g a c = true := by
  suffices h : ∀ (f : Nat) {a b c : Nat}, is_ancestor g a b = true →
      ancestorFuel g f b c = true → is_ancestor g a c = true by
    intro a b c h1 h2
    exact h c h1 h2
  intro f
  induction f with
  | zero =>
    intro a b c h1 h2
    have : b = c := eq_of_beq h2
    subst this
    exact h1
  | succ n ih =>
    intro a b c h1 h2
    simp only [ancestorFuel, Bool.or_eq_true, List.any_eq_true] at h2
    rcases h2 with h2 | ⟨q, hq, hrec⟩
    · have : b = c := eq_of_beq h2
      subst this
      exact h1
    · exact is_ancestor_step g hg hq (ih h1 hrec)

theorem is_ancestor_antisymm (g : AncestryIndex) (hg : topoOk g = true) {a b : Nat}
    (h1 : is_ancestor g a b = true) (h2 : is_ancestor g b a = true) : a = b :=
  Nat.le_antisymm (is_ancestor_le g hg h1) (is_ancestor_le g hg h2)

/-- Any amount of fuel can be replaced by the canonical fuel `b`: chains of
parent edges strictly descend, so length `b` always suffices. -/
theorem ancestorFuel_adequate (g : AncestryIndex) (hg : topoOk g = true) :
    ∀ (f : Nat) {a b : Nat}, ancestorFuel g f a b = true →
    is_ancestor g a b = true := by
  intro f
  induction f with
  | zero =>
    intro a b h
    have : a = b := eq_of_beq h
    subst this
    exact is_ancestor_refl g a
  | succ n ih =>
    intro a b h
    simp only [ancestorFuel, Bool.or_eq_true, List.any_eq_true] at h
    rcases h with h | ⟨q, hq, hrec⟩
    · have : a = b := eq_of_beq h
      subst this
      exact is_ancestor_refl g a
    · exact is_ancestor_step g hg hq (ih hrec)

/-- Case analysis on an ancestry fact: either the two commits coincide or
the chain passes through a parent. -/
theorem is_ancestor_elim (g : AncestryIndex) (hg : topoOk g = true) {a b : Nat}
    (h : is_ancestor g a b = true) :
    a = b ∨ ∃ q ∈ parentsOf g b, is_ancestor g a q = true := by
  unfold is_ancestor at h
  cases hb : b with
  | zero =>
    subst hb
    exact Or.inl (eq_of_beq h)
  | succ n =>
    subst hb
    simp only [ancestorFuel, Bool.or_eq_true, List.any_eq_true] at h
    rcases h with h | ⟨q, hq, hrec⟩
    · exact Or.inl (eq_of_beq h)
    · exact Or.inr ⟨q, hq, ancestorFuel_adequate g hg n hrec⟩

/-- Modelled from the spec: the evaluator's emission discipline (spec
section 4.5): all members of a set, emitted in descending index position
order, deduplicated. -/
def emit (g : AncestryIndex) (S : Nat → Bool) : List Nat :=
  ((List.range g.size).filter S).reverse

theorem mem_emit (g : AncestryIndex) (S : Nat → Bool) {p : Nat} :
    p ∈ emit g S ↔ p < g.size ∧ S p = true := by
  unfold emit
  rw [List.mem_reverse, List.mem_filter, List.mem_range]

/-- Generic fuel-bounded breadth-first enumeration over a neighbour
function: dequeues the front of the queue, records it if new, and enqueues
its neighbours. Returns the visit order. -/
def bfsWalk (nbr : Nat → List Nat) : Nat → List Nat → List Nat → List Nat
  | 0, _, vis => vis.reverse
  | _ + 1, [], vis => vis.reverse
  | fuel + 1, q :: rest, vis =>
    if q ∈ vis then bfsWalk nbr fuel rest vis
    else bfsWalk nbr fuel (rest ++ nbr q) (q :: vis)

/-- Fuel that always suffices for `bfsWalk` over positions below `n`. -/
def bfsFuel (nbr : Nat → List Nat) (n : Nat) (starts : List Nat) : Nat :=
  starts.length + (Finset.range n).sum (fun p => 1 + (nbr p).length)

/-- Modelled from the spec: breadth-first enumeration of the ancestors of a
head set, heads first (spec section 4.3, Ancestors with depth limit). -/
def bfsAncestors (g : AncestryIndex) (starts : List Nat) : List Nat :=
  bfsWalk (parentsOf g) (bfsFuel (parentsOf g) g.size starts) starts []

/-- Modelled from the spec: breadth-first enumeration of the descendants of
a root set, roots first (spec section 4.3, Descendants with depth limit). -/
def bfsDescendants (g : AncestryIndex) (starts : List Nat) : List Nat :=
  bfsWalk (childrenOf g) (bfsFuel (childrenOf g) g.size starts) starts []

/-- One saturation step of the undirected-reachability fixed point: keep the
current set and add every neighbour of a member. -/
def satStep (nbr : Nat → List Nat) (S : Finset Nat) : Finset Nat :=
  S ∪ S.biUnion (fun p => (nbr p).toFinset)

/-- Modelled from the spec: the `Reachable` fixed-point computation (spec
section 4.3): iterate the closure step enough times to reach the least fixed
point over a universe of `n` positions. -/
def saturate (nbr : Nat → List Nat) (n : Nat) (init : Finset Nat) : Finset Nat :=
  (satStep nbr)^[n + 1] init

/-- Neighbour relation of `Reachable`: parents and children, restricted to
the domain. -/
def reachNbr (g : AncestryIndex) (dom : Nat → Bool) (p : Nat) : List Nat :=
  (parentsOf g p ++ childrenOf g p).filter dom

/-- The sort key of `latest`: committer timestamp, ties broken by index
position. `latestKeyGT g q p` says `q` ranks strictly above `p`. -/
def latestKeyGT (g : AncestryIndex) (q p : Nat) : Bool :=
  tsOf g p < tsOf g q || (tsOf g q == tsOf g p && decide (p < q))

/-- Number of members of `S` ranking strictly above `p` under the `latest`
key. -/
def countAbove (g : AncestryIndex) (S : Nat → Bool) (p : Nat) : Nat :=
  ((Finset.range g.size).filter
    (fun q => S q = true ∧ latestKeyGT g q p = true)).card

/-- Modelled from the spec: the resolved revset expression algebra (spec
sections 4.3 and 4.4): after the resolver pass only id sets, DAG operators
and filter predicates remain. `filterP` carries the already-compiled
predicate as a function, as the predicate kinds are external to this core. -/
inductive ResolvedExpression where
  | none
  | all
  | commits (ids : List Nat)
  | ancestors (heads : ResolvedExpression) (depthLimit : Option Nat)
  | descendants (roots : ResolvedExpression) (depthLimit : Option Nat)
  | range (lo hi : ResolvedExpression)
  | dagRange (ro he : ResolvedExpression)
  | heads (e : ResolvedExpression)
  | roots (e : ResolvedExpression)
  | connected (e : ResolvedExpression)
  | reachable (sources domain : ResolvedExpression)
  | latest (e : ResolvedExpression) (count : Nat)
  | union (a b : ResolvedExpression)
  | intersection (a b : ResolvedExpression)
  | difference (a b : ResolvedExpression)
  | filterP (pred : Nat → Bool)
  | visibleHeads

/-- Modelled from the spec: the set semantics `S(e)` of each operator (spec
section 4.3), as a membership predicate on index positions. -/
def evalMem (g : AncestryIndex) : ResolvedExpression → Nat → Bool
  | .none, _ => false
  | .all, p => decide (p < g.size)
  | .commits ids, p => ids.contains p
  | .ancestors e .none, p =>
    (List.range g.size).any (fun h => evalMem g e h && is_ancestor g p h)
  | .ancestors e (.some k), p =>
    ((bfsAncestors g ((List.range g.size).filter (fun h => evalMem g e h)).reverse).take k).contains p
  | .descendants e .none, p =>
    (List.range g.size).any (fun r => evalMem g e r && is_ancestor g r p)
  | .descendants e (.some k), p =>
    ((bfsDescendants g ((List.range g.size).filter (fun r => evalMem g e r))).take k).contains p
  | .range lo hi, p =>
    ((List.range g.size).any (fun h => evalMem g hi h && is_ancestor g p h)) &&
    !((List.range g.size).any (fun h => evalMem g lo h && is_ancestor g p h))
  | .dagRange ro he, p =>
    ((List.range g.size).any (fun h => evalMem g he h && is_ancestor g p h)) &&
    ((List.range g.size).any (fun r => evalMem g ro r && is_ancestor g r p))
  | .heads e, p =>
    evalMem g e p &&
    !((List.range g.size).any (fun q => evalMem g e q && q != p && is_ancestor g p q))
  | .roots e, p =>
    evalMem g e p &&
    !((List.range g.size).any (fun q => evalMem g e q && q != p && is_ancestor g q p))
  | .connected e, p =>
    ((List.range g.size).any (fun h =>
      (evalMem g e h &&
       !((List.range g.size).any (fun q => evalMem g e q && q != h && is_ancestor g h q))) &&
      is_ancestor g p h)) &&
    ((List.range g.size).any (fun r =>
      (evalMem g e r &&
       !((List.range g.size).any (fun q => evalMem g e q && q != r && is_ancestor g q r))) &&
      is_ancestor g r p))
  | .reachable s d, p =>
    decide (p ∈ saturate (reachNbr g (fun q => evalMem g d q)) g.size
      (((List.range g.size).filter
        (fun q => evalMem g s q && evalMem g d q)).toFinset))
  | .latest e k, p =>
    evalMem g e p && decide (countAbove g (fun q => evalMem g e q) p < k)
  | .union a b, p => evalMem g a p || evalMem g b p
  | .intersection a b, p => evalMem g a p && evalMem g b p
  | .difference a b, p => evalMem g a p && !evalMem g b p
  | .filterP pred, p => pred p
  | .visibleHeads, p =>
    decide (p < g.size) &&
    !((List.range g.size).any (fun q => decide (q < g.size) && q != p && is_ancestor g p q))

/-- Modelled from the spec: evaluating a resolved expression (spec section
4.5): the members of `S(e)`, emitted in descending index position order. -/
def evalRevset (g : AncestryIndex) (e : ResolvedExpression) : List Nat :=
  emit g (evalMem g e)

/-- Modelled from the spec: `Range` with omitted operands (spec sections 4.3
and 8): an omitted left operand defaults to the root commit (position 0), an
omitted right operand defaults to `VisibleHeads`. -/
def mkRange (lo hi : Option ResolvedExpression) : ResolvedExpression :=
  .range (lo.getD (.commits [0])) (hi.getD .visibleHeads)

/-- Modelled from the spec: the value a named ref points to (spec section 3,
RefTarget): absent, normal, or conflicted with added/removed id lists. -/
inductive RefTarget where
  | absent
  | normal (id : String)
  | conflicted (adds : List String) (removes : List String)
deriving DecidableEq

/-- Modelled from the spec: `added_ids` (spec section 4.1). -/
def RefTarget.addedIds : RefTarget → List String
  | .absent => []
  | .normal i => [i]
  | .conflicted adds _ => adds

/-- Modelled from the spec: `is_present` (spec section 4.1). -/
def RefTarget.isPresent : RefTarget → Bool
  | .absent => false
  | _ => true

/-- Modelled from the spec: the tracking state of a remote bookmark (spec
section 3, RemoteRef). -/
inductive RemoteRefState where
  | new
  | tracking
deriving DecidableEq

/-- Modelled from the spec: a remote bookmark entry (spec section 3). -/
structure RemoteRef where
  target : RefTarget
  state : RemoteRefState
deriving DecidableEq

/-- Modelled from the spec: the View's ref namespaces (spec section 3),
restricted to the ones symbol resolution consults: local bookmarks, remote
bookmarks keyed by (bookmark name, remote name), tags, and raw git refs. -/
structure View where
  localBookmarks : List (String × RefTarget)
  remoteBookmarks : List ((String × String) × RemoteRef)
  tags : List (String × RefTarget)
  gitRefs : List (String × RefTarget)
deriving DecidableEq

def lookupLocal (v : View) (name : String) : RefTarget :=
  (v.localBookmarks.lookup name).getD .absent

def lookupRemote (v : View) (name remote : String) : Option RemoteRef :=
  v.remoteBookmarks.lookup (name, remote)

def lookupTag (v : View) (name : String) : RefTarget :=
  (v.tags.lookup name).getD .absent

def lookupGitRef (v : View) (path : String) : RefTarget :=
  (v.gitRefs.lookup path).getD .absent

/-- Modelled from the spec: the repository's two id namespaces consulted for
prefix lookup (spec sections 3 and 6): all commit ids, all change ids (each
paired with the commit currently carrying that change), and the minimum
disambiguation length. -/
structure RepoIds where
  commitIds : List String
  changeIds : List (String × String)
  minLen : Nat

/-- Modelled from the spec: the resolution error taxonomy (spec section 7),
restricted to the cases the claims mention. -/
inductive RevsetResolutionError where
  | emptyString
  | noSuchRevision (name : String) (candidates : List String)
  | ambiguousCommitId (pre : String)
  | ambiguousChangeId (pre : String)
deriving DecidableEq

deriving instance DecidableEq for Except

/-- A symbol as handed to the resolver: either bare, or with an explicit
`@remote` part (split by the parser, spec section 4.2). -/
inductive RevsetSymbol where
  | bare (s : String)
  | withRemote (name remote : String)
deriving DecidableEq

/-- Is the string a hex string (lower-case), as required before prefix
resolution is attempted (spec section 4.2 step 2)? -/
def isHexStr (s : String) : Bool :=
  s.toList.all (fun c => c.isDigit || ('a' ≤ c && c ≤ 'f'))

/-- Does the first string start the second (character-wise)? -/
def strStarts (p s : String) : Bool :=
  p.toList.isPrefixOf s.toList

def chListLe : List Char → List Char → Bool
  | [], _ => true
  | _ :: _, [] => false
  | a :: as, b :: bs => if a = b then chListLe as bs else decide (a < b)

/-- Character-wise lexicographic order on strings (kernel-reducible). -/
def strLe (a b : String) : Bool :=
  chListLe a.toList b.toList

def insertSortedStr (a : String) : List String → List String
  | [] => [a]
  | b :: l => if strLe a b then a :: b :: l else b :: insertSortedStr a l

/-- Sort candidate names, then drop duplicates, as the "did you mean" hints
are reported sorted and deduplicated. -/
def sortDedup (l : List String) : List String :=
  (l.foldr insertSortedStr []).dedup

/-- Modelled from the spec: which `(bookmark, remote)` pairs are offered as
candidates for a failing bare symbol. The suggestion machinery is not among
the sources; per the behaviour pinned in
`src/lib/tests/test_revset.rs::test_resolve_symbol_bookmarkes`, a pair whose
tracking remote bookmark points to the same target as the local bookmark of
the same name is omitted, while untracked (New-state) pairs are kept. -/
def bareCandidatePairs (v : View) : List (String × String) :=
  ((v.remoteBookmarks.filter (fun e =>
    e.2.target.isPresent &&
    !(e.2.state == RemoteRefState.tracking && e.2.target == lookupLocal v e.1.1))).map
    (fun e => e.1))

/-- Modelled from the spec: which `(bookmark, remote)` pairs are offered as
candidates for a failing symbol with an explicit `@remote` part: every
present pair, with no same-target omission (same test). -/
def atCandidatePairs (v : View) : List (String × String) :=
  (v.remoteBookmarks.filter (fun e => e.2.target.isPresent)).map (fun e => e.1)

/-- Candidate pool for a failing bare symbol: local bookmark names, tag
names, and the retained `name@remote` pairs (spec section 4.2 step 4). -/
def bareCandidatePool (v : View) : List String :=
  (v.localBookmarks.map (fun e => e.1)) ++ (v.tags.map (fun e => e.1)) ++
  ((bareCandidatePairs v).map (fun pr => pr.1 ++ "@" ++ pr.2))

/-- Candidate pool for a failing `name@remote` symbol: bare names plus all
present pairs (spec section 4.2). -/
def atCandidatePool (v : View) : List String :=
  (v.localBookmarks.map (fun e => e.1)) ++ (v.tags.map (fun e => e.1)) ++
  ((atCandidatePairs v).map (fun pr => pr.1 ++ "@" ++ pr.2))

/-- Filter a candidate pool by the (external) similarity heuristic `sim`;
the spec leaves the exact edit-distance heuristic open (section 9). -/
def mkCandidates (sim : String → String → Bool) (sym : String) (pool : List String) :
    List String :=
  sortDedup (pool.filter (sim sym))

/-- Present ref target as a resolution result, absent as failure. -/
def refIds (t : RefTarget) : Option (List String) :=
  match t with
  | .absent => Option.none
  | t => Option.some t.addedIds

/-- Modelled from the spec: ref-name resolution for a bare symbol (spec
section 4.2 step 3): a tag with the exact name wins over a local bookmark,
then a raw ref under `heads/`. -/
def resolveRefNames (v : View) (s : String) : Option (List String) :=
  (refIds (lookupTag v s)).orElse (fun _ =>
    (refIds (lookupLocal v s)).orElse (fun _ =>
      refIds (lookupGitRef v ("heads/" ++ s))))

/-- Ref-name resolution result, or `NoSuchRevision` with candidates. -/
def resolveViaRefs (sim : String → String → Bool) (v : View) (s : String) :
    Except RevsetResolutionError (List String) :=
  match resolveRefNames v s with
  | Option.some ids => .ok ids
  | Option.none => .error (.noSuchRevision s (mkCandidates sim s (bareCandidatePool v)))

/-- Modelled from the spec: bare-symbol and `name@remote` resolution (spec
section 4.2): empty-string check, then commit-id prefix, then change-id
prefix, then ref names; a `name@remote` symbol only consults the remote
bookmark mapping, regardless of tracking state. -/
def resolveSymbol (r : RepoIds) (sim : String → String → Bool) (v : View) :
    RevsetSymbol → Except RevsetResolutionError (List String)
  | .bare s =>
    if s = "" then .error .emptyString
    else if isHexStr s && decide (r.minLen ≤ s.length) then
      match r.commitIds.filter (fun i => strStarts s i) with
      | [c] => .ok [c]
      | _ :: _ :: _ => .error (.ambiguousCommitId s)
      | [] =>
        match r.changeIds.filter (fun pr => strStarts s pr.1) with
        | [pr] => .ok [pr.2]
        | _ :: _ :: _ => .error (.ambiguousChangeId s)
        | [] => resolveViaRefs sim v s
    else resolveViaRefs sim v s
  | .withRemote name remote =>
    match lookupRemote v name remote with
    | Option.some rr =>
      if rr.target.isPresent then .ok rr.target.addedIds
      else .error (.noSuchRevision (name ++ "@" ++ remote)
        (mkCandidates sim (name ++ "@" ++ remote) (atCandidatePool v)))
    | Option.none => .error (.noSuchRevision (name ++ "@" ++ remote)
      (mkCandidates sim (name ++ "@" ++ remote) (atCandidatePool v)))

/-- A user expression before the resolver pass, restricted to the node kinds
the claims need (spec section 4.4). -/
inductive UserExpression where
  | commitRef (s : RevsetSymbol)
  | present (e : UserExpression)
  | union (a b : UserExpression)

/-- A resolved user expression: only id sets and set operators remain. -/
inductive ResolvedUser where
  | commits (ids : List String)
  | union (a b : ResolvedUser)
deriving DecidableEq

/-- Modelled from the spec: the resolver pass (spec section 4.4): replace
every `CommitRef` by its resolution, fail on the first error, except that
`present(...)` converts `NoSuchRevision` into `Commits([])` at that node
only. -/
def resolveUserExpression (r : RepoIds) (sim : String → String → Bool) (v : View) :
    UserExpression → Except RevsetResolutionError ResolvedUser
  | .commitRef s => (resolveSymbol r sim v s).map ResolvedUser.commits
  | .present e =>
    match resolveUserExpression r sim v e with
    | .error (.noSuchRevision _ _) => .ok (.commits [])
    | x => x
  | .union a b => do
    let ra ← resolveUserExpression r sim v a
    let rb ← resolveUserExpression r sim v b
    pure (.union ra rb)

/-- The commit graph of `test_evaluate_expression_range` (and
`test_evaluate_expression_ancestors`): root, a chain 1-2-3, and a merge 4 of
1 and 3. -/
def rangeIndex : AncestryIndex :=
  ⟨[⟨[], 0⟩, ⟨[0], 0⟩, ⟨[1], 0⟩, ⟨[2], 0⟩, ⟨[1, 3], 0⟩]⟩

/-- The commit graph of `test_evaluate_expression_connected`: root, chain
1-2-3, sibling 4 of 2 (child of 1), and merge 5 of 3 and 4. -/
def connectedIndex : AncestryIndex :=
  ⟨[⟨[], 0⟩, ⟨[0], 0⟩, ⟨[1], 0⟩, ⟨[2], 0⟩, ⟨[1], 0⟩, ⟨[3, 4], 0⟩]⟩

/-- The commit graph of `test_evaluate_expression_descendants`: root, chain
1-2-3, sibling 4 of 2, merge 5 of 3 and 4, child 6 of 5. -/
def descIndex : AncestryIndex :=
  ⟨[⟨[], 0⟩, ⟨[0], 0⟩, ⟨[1], 0⟩, ⟨[2], 0⟩, ⟨[1], 0⟩, ⟨[3, 4], 0⟩, ⟨[5], 0⟩]⟩

/-- The commit graph of `test_evaluate_expression_latest`: root plus four
independent commits with committer timestamps 3, 2, 2, 1 (seconds). -/
def latestIndex : AncestryIndex :=
  ⟨[⟨[], 0⟩, ⟨[0], 3⟩, ⟨[0], 2⟩, ⟨[0], 2⟩, ⟨[0], 1⟩]⟩

/-- The commit graph of `test_evaluate_expression_reachable`: three disjoint
subgraphs hanging off the root: a chain (1-2-3), a merge (4, 5, 6), and a
"pyramidal monstrosity" (7..13). -/
def reachIndex : AncestryIndex :=
  ⟨[⟨[], 0⟩,
    ⟨[0], 0⟩, ⟨[1], 0⟩, ⟨[2], 0⟩,
    ⟨[0], 0⟩, ⟨[0], 0⟩, ⟨[4, 5], 0⟩,
    ⟨[0], 0⟩, ⟨[0], 0⟩, ⟨[0], 0⟩, ⟨[7, 8], 0⟩, ⟨[8, 9], 0⟩, ⟨[9], 0⟩,
    ⟨[10, 11], 0⟩]⟩

/-- The domain expression `all() ~ root()` used by the reachable test. -/
def allButRoot : ResolvedExpression :=
  .difference .all (.commits [0])

/-- A compound sample expression used to exercise the generic emission
guarantees. -/
def sampleExpr : ResolvedExpression :=
  .union (.ancestors (.commits [4]) Option.none) (.commits [2])

/-- Similarity heuristic accepting everything (candidate pools unfiltered). -/
def simAll : String → String → Bool := fun _ _ => true

/-- Similarity heuristic accepting nothing (empty candidate lists). -/
def simNone : String → String → Bool := fun _ _ => false

/-- The repository ids of `test_resolve_symbol_commit_id`: three commits
whose ids share the prefix "04", plus hex change ids exercising the
change-id namespace. -/
def commitRepo : RepoIds :=
  ⟨["0454de3cae04c46cda37ba2e8873b4c17ff51dcb",
    "045f56cd1b17e8abde86771e2705395dcde6a957",
    "0468f7da8de2ce442f512aacf83411d26cd2e0cf"],
   [("abc123", "0454de3cae04c46cda37ba2e8873b4c17ff51dcb"),
    ("abd456", "045f56cd1b17e8abde86771e2705395dcde6a957")],
   2⟩

/-- An empty view (no refs at all). -/
def emptyView : View := ⟨[], [], [], []⟩

/-- The view of the `test_resolve_symbol_bookmarkes` scenario cited by claim
C9: bookmark "local" set only locally to commit1, and remote bookmark
"remote" tracking commit2 under remote "origin". -/
def view9 : View :=
  ⟨[("local", .normal "c1")],
   [(("remote", "origin"), ⟨.normal "c2", .tracking⟩)],
   [], []⟩

/-- A repository id namespace irrelevant to ref lookup, for claim C9. -/
def repo9 : RepoIds := ⟨[], [], 2⟩

/-- The full view of `test_resolve_symbol_bookmarkes`: local bookmarks
(including one literally named "local-remote@origin" and a conflicted one),
and remote bookmarks under origin/mirror/untracked/git, where the mirror and
git pairs track the same target as the local "local-remote". -/
def view10 : View :=
  ⟨[("local", .normal "c1"),
    ("local-remote", .normal "c3"),
    ("local-remote@origin", .normal "c5"),
    ("local-conflicted", .conflicted ["c3", "c2"] ["c1"])],
   [(("remote", "origin"), ⟨.normal "c2", .tracking⟩),
    (("local-remote", "origin"), ⟨.normal "c4", .tracking⟩),
    (("local-remote", "mirror"), ⟨.normal "c3", .tracking⟩),
    (("local-remote", "untracked"), ⟨.normal "c3", .new⟩),
    (("local-remote", "git"), ⟨.normal "c3", .tracking⟩),
    (("remote-conflicted", "origin"), ⟨.conflicted ["c5", "c4"] ["c3"], .tracking⟩)],
   [], []⟩

theorem mem_evalRevset (g : AncestryIndex) (e : ResolvedExpression) {p : Nat} :
    p ∈ evalRevset g e ↔ p < g.size ∧ evalMem g e p = true :=
  mem_emit g (evalMem g e)

theorem emit_pairwise (g : AncestryIndex) (S : Nat → Bool) :
    (emit g S).Pairwise (fun a b => b < a) := by
  unfold emit
  rw [List.pairwise_reverse]
  exact (List.pairwise_lt_range g.size).sublist (List.filter_sublist _)

theorem emit_nodup (g : AncestryIndex) (S : Nat → Bool) : (emit g S).Nodup := by
  refine (emit_pairwise g S).imp ?_
  intro a b h
  exact (Nat.ne_of_lt h).symm

theorem pairwise_gt_indexOf_le {l : List Nat} (hl : l.Pairwise (fun a b => b < a))
    {a b : Nat} (hab : a ≤ b) (ha : a ∈ l) (hb : b ∈ l) :
    l.indexOf b ≤ l.indexOf a := by
  by_contra hc
  have hia : l.indexOf a < l.length := List.indexOf_lt_length.mpr ha
  have hib : l.indexOf b < l.length := List.indexOf_lt_length.mpr hb
  have hgt : l.indexOf a < l.indexOf b := Nat.lt_of_not_le hc
  have := (List.pairwise_iff_getElem.mp hl) (l.indexOf a) (l.indexOf b) hia hib hgt
  rw [List.getElem_indexOf hia, List.getElem_indexOf hib] at this
  exact absurd (Nat.lt_of_le_of_lt hab this) (Nat.lt_irrefl a)

theorem emit_congr (g : AncestryIndex) (S T : Nat → Bool)
    (h : ∀ p, S p = T p) : emit g S = emit g T := by
  unfold emit
  rw [List.filter_congr (fun p _ => h p)]

/-- Claim C1: for every resolved expression evaluated against a fixed index,
the emitted sequence is strictly descending in index position (so whenever
`is_ancestor a b` holds, `b` is emitted no later than `a`), contains no
position twice even when it is reachable via multiple sub-expressions, and
is a deterministic function of the denoted set alone, hence the same total
order on every iteration for a fixed index and expression. -/
theorem claim1_emission_order (g : AncestryIndex) (e : ResolvedExpression)
    (hg : topoOk g = true) :
    (evalRevset g e).Pairwise (fun a b => b < a) ∧
    (evalRevset g e).Nodup ∧
    (∀ a b, is_ancestor g a b = true → a ∈ evalRevset g e → b ∈ evalRevset g e →
      (evalRevset g e).indexOf b ≤ (evalRevset g e).indexOf a) ∧
    (∀ e', (∀ p, evalMem g e' p = evalMem g e p) → evalRevset g e' = evalRevset g e) := by
  refine ⟨emit_pairwise g _, emit_nodup g _, ?_, ?_⟩
  · intro a b hanc ha hb
    exact pairwise_gt_indexOf_le (emit_pairwise g _) (is_ancestor_le g hg hanc) ha hb
  · intro e' h
    exact emit_congr g _ _ h

/-- Witness for claim C1 at the graph of `test_evaluate_expression_range`
and a union expression reaching commit 2 via two sub-expressions. -/
theorem claim1_emission_order_witness :
    topoOk rangeIndex = true ∧
    (evalRevset rangeIndex sampleExpr).Pairwise (fun a b => b < a) :=
  ⟨by decide, (claim1_emission_order rangeIndex sampleExpr (by decide)).1⟩

/-- Claim C2 counterexample: with the left operand omitted, `..2` on the
range-test graph evaluates to the positions 2 and 1 only, whereas plain
`Ancestors(2)` also contains the root — so an omitted left operand is not
plain `Ancestors(b)`. -/
theorem claim2_counterexample :
    evalRevset rangeIndex (mkRange Option.none (Option.some (.commits [2]))) = [2, 1] ∧
    evalRevset rangeIndex (.ancestors (.commits [2]) Option.none) = [2, 1, 0] ∧
    evalRevset rangeIndex (mkRange Option.none (Option.some (.commits [2]))) ≠
      evalRevset rangeIndex (.ancestors (.commits [2]) Option.none) := by
  refine ⟨by decide, by decide, ?_⟩
  intro h
  have h1 : evalRevset rangeIndex (mkRange Option.none (Option.some (.commits [2]))) = [2, 1] := by decide
  have h2 : evalRevset rangeIndex (.ancestors (.commits [2]) Option.none) = [2, 1, 0] := by decide
  rw [h1, h2] at h
  exact absurd h (by decide)

/-- Claim C2 (amended): for all sets `a` and `b`, `S(Range(a,b))` equals
`S(Ancestors(b))` set-minus `S(Ancestors(a))` — in particular
`root()..root()` is empty because the left side is exclusive — and an
omitted right operand defaults to `VisibleHeads`, while an omitted left
operand defaults to the root commit (so `..b` is `Ancestors(b)` minus the
root's ancestors, not plain `Ancestors(b)`). -/
theorem claim2_range_semantics :
    (∀ (g : AncestryIndex) (lo hi : ResolvedExpression) (p : Nat),
      evalMem g (.range lo hi) p =
        (evalMem g (.ancestors hi Option.none) p &&
         !(evalMem g (.ancestors lo Option.none) p))) ∧
    (∀ (g : AncestryIndex) (lo hi : ResolvedExpression),
      evalRevset g (.range lo hi) =
        (evalRevset g (.ancestors hi Option.none)).filter
          (fun p => !(evalMem g (.ancestors lo Option.none) p))) ∧
    (∀ (g : AncestryIndex),
      evalRevset g (.range (.commits [0]) (.commits [0])) = []) ∧
    (∀ (hi : ResolvedExpression),
      mkRange Option.none (Option.some hi) = .range (.commits [0]) hi) ∧
    (∀ (lo : ResolvedExpression),
      mkRange (Option.some lo) Option.none = .range lo .visibleHeads) := by
  refine ⟨fun g lo hi p => rfl, ?_, ?_, fun hi => rfl, fun lo => rfl⟩
  · intro g lo hi
    unfold evalRevset emit
    rw [List.filter_reverse, List.filter_filter]
    congr 1
    apply List.filter_congr
    intro p _
    exact Bool.and_comm _ _
  · intro g
    unfold evalRevset emit
    have h : ∀ p, evalMem g (.range (.commits [0]) (.commits [0])) p = false := by
      intro p
      show (_ && !_) = false
      exact Bool.and_not_self _
    rw [List.filter_congr (fun p _ => h p)]
    simp

theorem heads_pair_iff (g : AncestryIndex) {a b : Nat}
    (hab : is_ancestor g a b = false) (hba : is_ancestor g b a = false) (q : Nat) :
    evalMem g (.heads (.commits [a, b])) q = true ↔ (q = a ∨ q = b) := by
  show (([a, b].contains q) && !(List.range g.size).any _) = true ↔ _
  rw [Bool.and_eq_true]
  constructor
  · rintro ⟨h1, _⟩
    simpa using h1
  · intro h
    refine ⟨by simpa using h, ?_⟩
    simp only [Bool.not_eq_true', List.any_eq_false, List.mem_range]
    intro x _ hcontra
    rw [Bool.and_eq_true, Bool.and_eq_true] at hcontra
    obtain ⟨⟨hcx, hxq⟩, hanc⟩ := hcontra
    have hcx' : ([a, b].contains x) = true := hcx
    have hxab : x = a ∨ x = b := by simpa using hcx'
    have hxq' : x ≠ q := by simpa using hxq
    rcases h with h | h <;> rcases hxab with hx | hx
    · exact hxq' (hx.trans h.symm)
    · subst h
      subst hx
      rw [hab] at hanc
      exact Bool.false_ne_true hanc
    · subst h
      subst hx
      rw [hba] at hanc
      exact Bool.false_ne_true hanc
    · exact hxq' (hx.trans h.symm)

theorem roots_pair_iff (g : AncestryIndex) {a b : Nat}
    (hab : is_ancestor g a b = false) (hba : is_ancestor g b a = false) (q : Nat) :
    evalMem g (.roots (.commits [a, b])) q = true ↔ (q = a ∨ q = b) := by
  show (([a, b].contains q) && !(List.range g.size).any _) = true ↔ _
  rw [Bool.and_eq_true]
  constructor
  · rintro ⟨h1, _⟩
    simpa using h1
  · intro h
    refine ⟨by simpa using h, ?_⟩
    simp only [Bool.not_eq_true', List.any_eq_false, List.mem_range]
    intro x _ hcontra
    rw [Bool.and_eq_true, Bool.and_eq_true] at hcontra
    obtain ⟨⟨hcx, hxq⟩, hanc⟩ := hcontra
    have hcx' : ([a, b].contains x) = true := hcx
    have hxab : x = a ∨ x = b := by simpa using hcx'
    have hxq' : x ≠ q := by simpa using hxq
    rcases h with h | h <;> rcases hxab with hx | hx
    · exact hxq' (hx.trans h.symm)
    · subst h
      subst hx
      rw [hba] at hanc
      exact Bool.false_ne_true hanc
    · subst h
      subst hx
      rw [hab] at hanc
      exact Bool.false_ne_true hanc
    · exact hxq' (hx.trans h.symm)

theorem connected_pair_mem (g : AncestryIndex) (hg : topoOk g = true)
    {a b : Nat} (ha : a < g.size) (hb : b < g.size)
    (hab : is_ancestor g a b = false) (hba : is_ancestor g b a = false) (p : Nat) :
    evalMem g (.connected (.commits [a, b])) p = evalMem g (.commits [a, b]) p := by
  have hstep : evalMem g (.connected (.commits [a, b])) p =
      evalMem g (.dagRange (.roots (.commits [a, b])) (.heads (.commits [a, b]))) p := rfl
  rw [hstep]
  by_cases hmem : p = a ∨ p = b
  · have hRHS : evalMem g (.commits [a, b]) p = true := by
      show ([a, b].contains p) = true
      simpa using hmem
    rw [hRHS]
    show (_ && _) = true
    rw [Bool.and_eq_true]
    constructor
    · rw [List.any_eq_true]
      rcases hmem with rfl | rfl
      · exact ⟨p, List.mem_range.mpr ha, by
          rw [Bool.and_eq_true]
          exact ⟨(heads_pair_iff g hab hba p).mpr (Or.inl rfl), is_ancestor_refl g p⟩⟩
      · exact ⟨p, List.mem_range.mpr hb, by
          rw [Bool.and_eq_true]
          exact ⟨(heads_pair_iff g hab hba p).mpr (Or.inr rfl), is_ancestor_refl g p⟩⟩
    · rw [List.any_eq_true]
      rcases hmem with rfl | rfl
      · exact ⟨p, List.mem_range.mpr ha, by
          rw [Bool.and_eq_true]
          exact ⟨(roots_pair_iff g hab hba p).mpr (Or.inl rfl), is_ancestor_refl g p⟩⟩
      · exact ⟨p, List.mem_range.mpr hb, by
          rw [Bool.and_eq_true]
          exact ⟨(roots_pair_iff g hab hba p).mpr (Or.inr rfl), is_ancestor_refl g p⟩⟩
  · push_neg at hmem
    have hRHS : evalMem g (.commits [a, b]) p = false := by
      show ([a, b].contains p) = false
      simp [hmem.1, hmem.2]
    rw [hRHS]
    cases hx : evalMem g
        (.dagRange (.roots (.commits [a, b])) (.heads (.commits [a, b]))) p with
    | false => rfl
    | true =>
      exfalso
      have hx' : (_ && _) = true := hx
      rw [Bool.and_eq_true] at hx'
      obtain ⟨h1, h2⟩ := hx'
      rw [List.any_eq_true] at h1 h2
      obtain ⟨x, _, hx1⟩ := h1
      obtain ⟨y, _, hy1⟩ := h2
      rw [Bool.and_eq_true] at hx1 hy1
      obtain ⟨hhx, hpx⟩ := hx1
      obtain ⟨hry, hyp⟩ := hy1
      have hxab := (heads_pair_iff g hab hba x).mp hhx
      have hyab := (roots_pair_iff g hab hba y).mp hry
      rcases hxab with rfl | rfl <;> rcases hyab with rfl | rfl
      · exact hmem.1 (is_ancestor_antisymm g hg hpx hyp)
      · rw [is_ancestor_trans g hg hyp hpx] at hba
        exact Bool.true_eq_false ▸ hba
      · rw [is_ancestor_trans g hg hyp hpx] at hab
        exact Bool.true_eq_false ▸ hab
      · exact hmem.2 (is_ancestor_antisymm g hg hpx hyp)

/-- Claim C3: for every input set, `Connected(X)` denotes exactly
`DagRange(Roots(X), Heads(X))`; and for two sibling commits (neither an
ancestor of the other) with no other element of the set between them, the
connection adds nothing: `Connected` returns exactly those two commits. -/
theorem claim3_connected_dag_range :
    (∀ (g : AncestryIndex) (e : ResolvedExpression),
      evalRevset g (.connected e) =
        evalRevset g (.dagRange (.roots e) (.heads e))) ∧
    (∀ (g : AncestryIndex) (a b : Nat), topoOk g = true →
      a < g.size → b < g.size →
      is_ancestor g a b = false → is_ancestor g b a = false →
      evalRevset g (.connected (.commits [a, b])) =
        evalRevset g (.commits [a, b])) := by
  constructor
  · intro g e
    rfl
  · intro g a b hg ha hb hab hba
    exact emit_congr g _ _ (connected_pair_mem g hg ha hb hab hba)

/-- Witness for claim C3 at the sibling commits 2 and 4 of the graph of
`test_evaluate_expression_connected`. -/
theorem claim3_connected_dag_range_witness :
    (topoOk connectedIndex = true ∧ 2 < connectedIndex.size ∧
     4 < connectedIndex.size ∧ is_ancestor connectedIndex 2 4 = false ∧
     is_ancestor connectedIndex 4 2 = false) ∧
    evalRevset connectedIndex (.connected (.commits [2, 4])) =
      evalRevset connectedIndex (.commits [2, 4]) :=
  ⟨⟨by decide, by decide, by decide, by decide, by decide⟩,
   claim3_connected_dag_range.2 connectedIndex 2 4 (by decide) (by decide)
     (by decide) (by decide) (by decide)⟩

/-- Claim C4: for every symbol that is a hex string of at least the minimum
disambiguation length, resolution first tries it as a commit-id prefix and
only if no commit matches tries it as a change-id prefix; the namespaces are
independent, so a string matching exactly one commit id resolves to that
commit regardless of change-id near-matches; a prefix matching zero ids in
both namespaces falls through to ref-name resolution; and a prefix matching
two or more ids in one namespace fails with `AmbiguousCommitIdPrefix`
respectively `AmbiguousChangeIdPrefix`. -/
theorem claim4_hex_resolution (r : RepoIds) (sim : String → String → Bool)
    (v : View) (s : String) (hs0 : s ≠ "") (hhex : isHexStr s = true)
    (hlen : r.minLen ≤ s.length) :
    (∀ c, r.commitIds.filter (fun i => strStarts s i) = [c] →
      resolveSymbol r sim v (.bare s) = .ok [c]) ∧
    (∀ k c, r.commitIds.filter (fun i => strStarts s i) = [] →
      r.changeIds.filter (fun pr => strStarts s pr.1) = [(k, c)] →
      resolveSymbol r sim v (.bare s) = .ok [c]) ∧
    (r.commitIds.filter (fun i => strStarts s i) = [] →
      r.changeIds.filter (fun pr => strStarts s pr.1) = [] →
      resolveSymbol r sim v (.bare s) = resolveViaRefs sim v s) ∧
    (2 ≤ (r.commitIds.filter (fun i => strStarts s i)).length →
      resolveSymbol r sim v (.bare s) = .error (.ambiguousCommitId s)) ∧
    (r.commitIds.filter (fun i => strStarts s i) = [] →
      2 ≤ (r.changeIds.filter (fun pr => strStarts s pr.1)).length →
      resolveSymbol r sim v (.bare s) = .error (.ambiguousChangeId s)) := by
  have hcond : (isHexStr s && decide (r.minLen ≤ s.length)) = true := by
    rw [hhex, decide_eq_true hlen]
    rfl
  refine ⟨?_, ?_, ?_, ?_, ?_⟩
  · intro c hc
    simp only [resolveSymbol]
    rw [if_neg hs0, if_pos hcond, hc]
  · intro k c hc1 hc2
    simp only [resolveSymbol]
    rw [if_neg hs0, if_pos hcond, hc1, hc2]
  · intro hc1 hc2
    simp only [resolveSymbol]
    rw [if_neg hs0, if_pos hcond, hc1, hc2]
  · intro hlen2
    obtain ⟨x, t, hxt⟩ : ∃ x t, r.commitIds.filter (fun i => strStarts s i) = x :: t := by
      cases hf : r.commitIds.filter (fun i => strStarts s i) with
      | nil =>
        rw [hf] at hlen2
        simp at hlen2
      | cons x t => exact ⟨x, t, rfl⟩
    obtain ⟨y, t2, hyt⟩ : ∃ y t2, t = y :: t2 := by
      cases ht : t with
      | nil =>
        rw [hxt, ht] at hlen2
        simp at hlen2
      | cons y t2 => exact ⟨y, t2, rfl⟩
    simp only [resolveSymbol]
    rw [if_neg hs0, if_pos hcond, hxt, hyt]
  · intro hc1 hlen2
    obtain ⟨x, t, hxt⟩ : ∃ x t,
        r.changeIds.filter (fun pr => strStarts s pr.1) = x :: t := by
      cases hf : r.changeIds.filter (fun pr => strStarts s pr.1) with
      | nil =>
        rw [hf] at hlen2
        simp at hlen2
      | cons x t => exact ⟨x, t, rfl⟩
    obtain ⟨y, t2, hyt⟩ : ∃ y t2, t = y :: t2 := by
      cases ht : t with
      | nil =>
        rw [hxt, ht] at hlen2
        simp at hlen2
      | cons y t2 => exact ⟨y, t2, rfl⟩
    simp only [resolveSymbol]
    rw [if_neg hs0, if_pos hcond, hc1, hxt, hyt]

/-- Witness for claim C4 on the ids of `test_resolve_symbol_commit_id`:
"046" uniquely matches the third commit id and resolves to it. -/
theorem claim4_hex_resolution_witness :
    ("046" ≠ "" ∧ isHexStr "046" = true ∧ commitRepo.minLen ≤ "046".length ∧
     commitRepo.commitIds.filter (fun i => strStarts "046" i) =
       ["0468f7da8de2ce442f512aacf83411d26cd2e0cf"]) ∧
    resolveSymbol commitRepo simNone emptyView (.bare "046") =
      .ok ["0468f7da8de2ce442f512aacf83411d26cd2e0cf"] :=
  ⟨⟨by decide, by decide, by decide, by decide⟩,
   (claim4_hex_resolution commitRepo simNone emptyView "046" (by decide) (by decide)
     (by decide)).1 "0468f7da8de2ce442f512aacf83411d26cd2e0cf" (by decide)⟩

/-- Claim C5: wrapping a resolution in `present(...)` converts a
`NoSuchRevision` outcome into the empty set at that node only, while an
`AmbiguousCommitIdPrefix` or `AmbiguousChangeIdPrefix` outcome propagates
unchanged; in particular `present(04)` over two commits sharing the prefix
"04" still fails with the ambiguity. -/
theorem claim5_present_wrapper :
    (∀ (r : RepoIds) (sim : String → String → Bool) (v : View)
       (sym : RevsetSymbol) (n : String) (cs : List String),
      resolveSymbol r sim v sym = .error (.noSuchRevision n cs) →
      resolveUserExpression r sim v (.present (.commitRef sym)) = .ok (.commits [])) ∧
    (∀ (r : RepoIds) (sim : String → String → Bool) (v : View)
       (e : UserExpression) (p : String),
      resolveUserExpression r sim v e = .error (.ambiguousCommitId p) →
      resolveUserExpression r sim v (.present e) = .error (.ambiguousCommitId p)) ∧
    (∀ (r : RepoIds) (sim : String → String → Bool) (v : View)
       (e : UserExpression) (p : String),
      resolveUserExpression r sim v e = .error (.ambiguousChangeId p) →
      resolveUserExpression r sim v (.present e) = .error (.ambiguousChangeId p)) ∧
    (∀ (r : RepoIds) (sim : String → String → Bool) (v : View)
       (a b : UserExpression) (n : String) (cs : List String) (rb : ResolvedUser),
      resolveUserExpression r sim v a = .error (.noSuchRevision n cs) →
      resolveUserExpression r sim v b = .ok rb →
      resolveUserExpression r sim v (.union (.present a) b) =
        .ok (.union (.commits []) rb)) ∧
    (resolveUserExpression commitRepo simNone emptyView
      (.present (.commitRef (.bare "04"))) = .error (.ambiguousCommitId "04")) := by
  refine ⟨?_, ?_, ?_, ?_, by decide⟩
  · intro r sim v sym n cs h
    simp only [resolveUserExpression]
    rw [h]
    rfl
  · intro r sim v e p h
    simp only [resolveUserExpression]
    rw [h]
  · intro r sim v e p h
    simp only [resolveUserExpression]
    rw [h]
  · intro r sim v a b n cs rb ha hb
    simp only [resolveUserExpression]
    rw [ha, hb]
    rfl

/-- Witness for claim C5: "foo" does not resolve, and `present(foo)`
resolves to the empty set (test lines 198-220). -/
theorem claim5_present_wrapper_witness :
    resolveSymbol commitRepo simNone emptyView (.bare "foo") =
      .error (.noSuchRevision "foo" []) ∧
    resolveUserExpression commitRepo simNone emptyView
      (.present (.commitRef (.bare "foo"))) = .ok (.commits []) :=
  ⟨by decide,
   claim5_present_wrapper.1 commitRepo simNone emptyView (.bare "foo") "foo" []
     (by decide)⟩

/-- Claim C9: a symbol of the form `name@remote` resolves by looking up the
(bookmark, remote) pair in the remote-bookmark mapping, matching regardless
of tracking state (New and Tracking both resolve) and with no fallback to
commit/change-id prefixes (the repository id namespaces are never
consulted); in the cited scenario, "local" resolves to commit1, "remote"
alone fails with `NoSuchRevision`, and "remote@origin" resolves to
commit2. -/
theorem claim9_remote_resolution :
    (∀ (r : RepoIds) (sim : String → String → Bool) (v : View)
       (name remote : String) (rr : RemoteRef),
      lookupRemote v name remote = Option.some rr →
      rr.target.isPresent = true →
      resolveSymbol r sim v (.withRemote name remote) = .ok rr.target.addedIds) ∧
    (∀ (r1 r2 : RepoIds) (sim : String → String → Bool) (v : View)
       (name remote : String),
      resolveSymbol r1 sim v (.withRemote name remote) =
        resolveSymbol r2 sim v (.withRemote name remote)) ∧
    (resolveSymbol repo9 simNone view9 (.bare "local") = .ok ["c1"]) ∧
    (resolveSymbol repo9 simNone view9 (.bare "remote") =
      .error (.noSuchRevision "remote" [])) ∧
    (resolveSymbol repo9 simNone view9 (.withRemote "remote" "origin") =
      .ok ["c2"]) := by
  refine ⟨?_, ?_, by decide, by decide, by decide⟩
  · intro r sim v name remote rr h hp
    simp only [resolveSymbol]
    rw [h]
    simp [hp]
  · intro r1 r2 sim v name remote
    simp only [resolveSymbol]

/-- Witness for claim C9 at the untracked (New-state) pair of the bookmark
test view, showing a New-state remote bookmark resolves just like a tracked
one. -/
theorem claim9_remote_resolution_witness :
    (lookupRemote view10 "local-remote" "untracked" =
       Option.some ⟨.normal "c3", .new⟩ ∧
     (RefTarget.normal "c3").isPresent = true) ∧
    resolveSymbol repo9 simAll view10 (.withRemote "local-remote" "untracked") =
      .ok ["c3"] :=
  ⟨⟨by decide, by decide⟩,
   claim9_remote_resolution.1 repo9 simAll view10 "local-remote" "untracked"
     ⟨.normal "c3", .new⟩ (by decide) (by decide)⟩

/-- Claim C10: when a bare symbol fails to resolve, the candidates offered
in `NoSuchRevision` omit `name@remote` pairs whose tracking remote bookmark
points to the same target as the local bookmark of the same name, while
still including same-named untracked (New-state) pairs; for a failing
symbol with an explicit `@remote` part, such same-target tracked pairs are
not omitted. The concrete error values reproduce the bookmark-test view
with an all-accepting similarity filter. -/
theorem claim10_candidate_omission :
    (∀ (v : View) (n rm : String),
      (v.remoteBookmarks.filter (fun e0 => decide (e0.1 = (n, rm)))).all
        (fun e0 => e0.2.state == RemoteRefState.tracking &&
          e0.2.target == lookupLocal v n) = true →
      (n, rm) ∉ bareCandidatePairs v) ∧
    (∀ (v : View) (n rm : String) (rr : RemoteRef),
      ((n, rm), rr) ∈ v.remoteBookmarks → rr.state = RemoteRefState.new →
      rr.target.isPresent = true → (n, rm) ∈ bareCandidatePairs v) ∧
    (∀ (v : View) (n rm : String) (rr : RemoteRef),
      ((n, rm), rr) ∈ v.remoteBookmarks → rr.target.isPresent = true →
      (n, rm) ∈ atCandidatePairs v) ∧
    (resolveSymbol repo9 simAll view10 (.bare "local-emote") =
      .error (.noSuchRevision "local-emote"
        ["local", "local-conflicted", "local-remote", "local-remote@origin",
         "local-remote@untracked", "remote-conflicted@origin", "remote@origin"])) ∧
    (resolveSymbol repo9 simAll view10 (.withRemote "local-emote" "origin") =
      .error (.noSuchRevision "local-emote@origin"
        ["local", "local-conflicted", "local-remote", "local-remote@git",
         "local-remote@mirror", "local-remote@origin", "local-remote@untracked",
         "remote-conflicted@origin", "remote@origin"])) := by
  refine ⟨?_, ?_, ?_, by decide, by decide⟩
  · intro v n rm h hmem
    unfold bareCandidatePairs at hmem
    rw [List.mem_map] at hmem
    obtain ⟨e, he, heq⟩ := hmem
    rw [List.mem_filter] at he
    obtain ⟨hein, hpred⟩ := he
    have hkey : e.1 = (n, rm) := heq
    have hef : e ∈ v.remoteBookmarks.filter (fun e0 => decide (e0.1 = (n, rm))) :=
      List.mem_filter.mpr ⟨hein, by rw [hkey]; simp⟩
    have hall := (List.all_eq_true.mp h) _ hef
    rw [Bool.and_eq_true] at hall
    obtain ⟨hst, htg⟩ := hall
    have hpred' : (e.2.target.isPresent &&
        !(e.2.state == RemoteRefState.tracking &&
          e.2.target == lookupLocal v e.1.1)) = true := hpred
    have h11 : e.1.1 = n := by rw [hkey]
    rw [h11] at hpred'
    rw [Bool.and_eq_true] at hpred'
    obtain ⟨_, hneg⟩ := hpred'
    rw [hst, htg] at hneg
    simp at hneg
  · intro v n rm rr hmem hst hp
    unfold bareCandidatePairs
    rw [List.mem_map]
    refine ⟨((n, rm), rr), ?_, rfl⟩
    rw [List.mem_filter]
    refine ⟨hmem, ?_⟩
    dsimp only
    rw [hst, hp]
    simp
  · intro v n rm rr hmem hp
    unfold atCandidatePairs
    rw [List.mem_map]
    refine ⟨((n, rm), rr), ?_, rfl⟩
    rw [List.mem_filter]
    exact ⟨hmem, hp⟩

/-- Witness for claim C10 at the "local-remote@mirror" pair of the bookmark
test view: it tracks the same target as the local bookmark, so it is
omitted from the bare-symbol candidate pairs. -/
theorem claim10_candidate_omission_witness :
    ((view10.remoteBookmarks.filter
        (fun e0 => decide (e0.1 = ("local-remote", "mirror")))).all
      (fun e0 => e0.2.state == RemoteRefState.tracking &&
        e0.2.target == lookupLocal view10 "local-remote") = true) ∧
    ("local-remote", "mirror") ∉ bareCandidatePairs view10 :=
  ⟨by decide,
   claim10_candidate_omission.1 view10 "local-remote" "mirror" (by decide)⟩

theorem latestKeyGT_irrefl (g : AncestryIndex) (p : Nat) :
    latestKeyGT g p p = false := by
  simp [latestKeyGT]

theorem latestKeyGT_trans (g : AncestryIndex) {a b c : Nat}
    (h1 : latestKeyGT g a b = true) (h2 : latestKeyGT g b c = true) :
    latestKeyGT g a c = true := by
  simp only [latestKeyGT, Bool.or_eq_true, Bool.and_eq_true, decide_eq_true_iff,
    beq_iff_eq] at h1 h2 ⊢
  rcases h1 with h1 | ⟨h1e, h1l⟩ <;> rcases h2 with h2 | ⟨h2e, h2l⟩
  · exact Or.inl (lt_trans h2 h1)
  · exact Or.inl (h2e ▸ h1)
  · exact Or.inl (h1e ▸ h2)
  · exact Or.inr ⟨h1e.trans h2e, lt_trans h2l h1l⟩

theorem latestKeyGT_total (g : AncestryIndex) {p q : Nat} (h : p ≠ q) :
    latestKeyGT g p q = true ∨ latestKeyGT g q p = true := by
  simp only [latestKeyGT, Bool.or_eq_true, Bool.and_eq_true, decide_eq_true_iff,
    beq_iff_eq]
  rcases lt_trichotomy (tsOf g p) (tsOf g q) with ht | ht | ht
  · exact Or.inr (Or.inl ht)
  · rcases Nat.lt_or_ge p q with hp | hp
    · exact Or.inr (Or.inr ⟨ht.symm, hp⟩)
    · exact Or.inl (Or.inr ⟨ht, Nat.lt_of_le_of_ne hp (Ne.symm h)⟩)
  · exact Or.inl (Or.inl ht)

theorem countAbove_lt_of_keyGT (g : AncestryIndex) (S : Nat → Bool) {p q : Nat}
    (hq : S q = true) (hqr : q < g.size) (hgt : latestKeyGT g q p = true) :
    countAbove g S q < countAbove g S p := by
  unfold countAbove
  have hnot : q ∉ (Finset.range g.size).filter
      (fun r => S r = true ∧ latestKeyGT g r q = true) := by
    intro hmem
    rw [Finset.mem_filter] at hmem
    rw [latestKeyGT_irrefl] at hmem
    exact Bool.false_ne_true hmem.2.2
  have hsub : insert q ((Finset.range g.size).filter
      (fun r => S r = true ∧ latestKeyGT g r q = true)) ⊆
      (Finset.range g.size).filter
        (fun r => S r = true ∧ latestKeyGT g r p = true) := by
    intro r hr
    rw [Finset.mem_insert] at hr
    rcases hr with rfl | hr
    · exact Finset.mem_filter.mpr ⟨Finset.mem_range.mpr hqr, hq, hgt⟩
    · rw [Finset.mem_filter] at hr ⊢
      exact ⟨hr.1, hr.2.1, latestKeyGT_trans g hr.2.2 hgt⟩
  have := Finset.card_le_card hsub
  rw [Finset.card_insert_of_not_mem hnot] at this
  exact Nat.lt_of_succ_le this

theorem countAbove_lt_card (g : AncestryIndex) (S : Nat → Bool) {p : Nat}
    (hp : S p = true) (hpr : p < g.size) :
    countAbove g S p <
      ((Finset.range g.size).filter (fun r => S r = true)).card := by
  unfold countAbove
  have hmem : p ∈ (Finset.range g.size).filter (fun r => S r = true) :=
    Finset.mem_filter.mpr ⟨Finset.mem_range.mpr hpr, hp⟩
  have hsub : (Finset.range g.size).filter
      (fun r => S r = true ∧ latestKeyGT g r p = true) ⊆
      ((Finset.range g.size).filter (fun r => S r = true)).erase p := by
    intro r hr
    rw [Finset.mem_filter] at hr
    rw [Finset.mem_erase]
    refine ⟨?_, Finset.mem_filter.mpr ⟨hr.1, hr.2.1⟩⟩
    intro hrp
    subst hrp
    rw [latestKeyGT_irrefl] at hr
    exact Bool.false_ne_true hr.2.2
  have := Finset.card_le_card hsub
  rw [Finset.card_erase_of_mem hmem] at this
  have hpos : 0 < ((Finset.range g.size).filter (fun r => S r = true)).card :=
    Finset.card_pos.mpr ⟨p, hmem⟩
  omega

theorem countAbove_injOn (g : AncestryIndex) (S : Nat → Bool) {p q : Nat}
    (hp : S p = true) (hpr : p < g.size) (hq : S q = true) (hqr : q < g.size)
    (hne : p ≠ q) : countAbove g S p ≠ countAbove g S q := by
  rcases latestKeyGT_total g hne with h | h
  · exact Nat.ne_of_lt (countAbove_lt_of_keyGT g S hp hpr h)
  · exact (Nat.ne_of_lt (countAbove_lt_of_keyGT g S hq hqr h)).symm

theorem latest_result_card (g : AncestryIndex) (S : Nat → Bool) (k : Nat) :
    (((Finset.range g.size).filter (fun p => S p = true)).filter
      (fun p => countAbove g S p < k)).card =
    min k ((Finset.range g.size).filter (fun p => S p = true)).card := by
  classical
  set SF := (Finset.range g.size).filter (fun p => S p = true) with hSF
  set cg := fun p => countAbove g S p with hcg
  have hmemSF : ∀ p ∈ SF, S p = true ∧ p < g.size := by
    intro p hp
    rw [hSF, Finset.mem_filter, Finset.mem_range] at hp
    exact ⟨hp.2, hp.1⟩
  have hinj : Set.InjOn cg ↑SF := by
    intro p hp q hq heq
    by_contra hne
    obtain ⟨hpS, hpr⟩ := hmemSF p (Finset.mem_coe.mp hp)
    obtain ⟨hqS, hqr⟩ := hmemSF q (Finset.mem_coe.mp hq)
    exact countAbove_injOn g S hpS hpr hqS hqr hne heq
  have himgsub : SF.image cg ⊆ Finset.range SF.card := by
    intro x hx
    rw [Finset.mem_image] at hx
    obtain ⟨p, hp, rfl⟩ := hx
    obtain ⟨hpS, hpr⟩ := hmemSF p hp
    exact Finset.mem_range.mpr (countAbove_lt_card g S hpS hpr)
  have himg : SF.image cg = Finset.range SF.card := by
    apply Finset.eq_of_subset_of_card_le himgsub
    rw [Finset.card_image_of_injOn hinj, Finset.card_range]
  have himgF : (SF.filter (fun p => cg p < k)).image cg =
      (Finset.range SF.card).filter (fun x => x < k) := by
    ext x
    rw [Finset.mem_image, Finset.mem_filter]
    constructor
    · rintro ⟨p, hp, rfl⟩
      rw [Finset.mem_filter] at hp
      constructor
      · rw [← himg]
        exact Finset.mem_image_of_mem cg hp.1
      · exact hp.2
    · rintro ⟨hx1, hx2⟩
      rw [← himg, Finset.mem_image] at hx1
      obtain ⟨p, hp, rfl⟩ := hx1
      exact ⟨p, Finset.mem_filter.mpr ⟨hp, hx2⟩, rfl⟩
  have hsubset : ↑(SF.filter (fun p => cg p < k)) ⊆ (↑SF : Set Nat) :=
    Finset.coe_subset.mpr (Finset.filter_subset _ _)
  have hcard1 : (SF.filter (fun p => cg p < k)).card =
      ((SF.filter (fun p => cg p < k)).image cg).card :=
    (Finset.card_image_of_injOn (hinj.mono hsubset)).symm
  rw [hcard1, himgF]
  have hrange : (Finset.range SF.card).filter (fun x => x < k) =
      Finset.range (min k SF.card) := by
    ext x
    simp only [Finset.mem_filter, Finset.mem_range, lt_min_iff]
    omega
  rw [hrange, Finset.card_range]

theorem latest_filter_eq (g : AncestryIndex) (e : ResolvedExpression) (k : Nat) :
    (Finset.range g.size).filter (fun p => evalMem g (.latest e k) p = true) =
    ((Finset.range g.size).filter (fun p => evalMem g e p = true)).filter
      (fun p => countAbove g (fun q => evalMem g e q) p < k) := by
  ext p
  rw [Finset.mem_filter, Finset.mem_filter, Finset.mem_filter]
  constructor
  · rintro ⟨h1, h2⟩
    have h2' : (evalMem g e p &&
        decide (countAbove g (fun q => evalMem g e q) p < k)) = true := h2
    rw [Bool.and_eq_true, decide_eq_true_iff] at h2'
    exact ⟨⟨h1, h2'.1⟩, h2'.2⟩
  · rintro ⟨⟨h1, h2⟩, h3⟩
    refine ⟨h1, ?_⟩
    show (evalMem g e p &&
      decide (countAbove g (fun q => evalMem g e q) p < k)) = true
    rw [Bool.and_eq_true, decide_eq_true_iff]
    exact ⟨h2, h3⟩

/-- Claim C7 counterexample: on four commits with committer timestamps
{3,2,2,1} (positions 1..4 of `latestIndex`), `latest(all(), 2)` emits the
later-positioned timestamp-2 commit (position 3) first and the timestamp-3
commit (position 1) second — not the timestamp-3 commit first as
claimed. -/
theorem claim7_counterexample :
    evalRevset latestIndex (.latest .all 2) = [3, 1] ∧
    tsOf latestIndex 1 = 3 ∧ tsOf latestIndex 3 = 2 ∧
    evalRevset latestIndex (.latest .all 2) ≠ [1, 3] := by
  refine ⟨by decide, by decide, by decide, ?_⟩
  intro h
  have h1 : evalRevset latestIndex (.latest .all 2) = [3, 1] := by decide
  rw [h1] at h
  exact absurd h (by decide)

/-- Claim C7 (amended): `latest(e, n)` selects the `n` commits of `S(e)`
with the greatest committer timestamps, ties broken in favor of the commit
with the higher index position, returning fewer than `n` commits if `S(e)`
is smaller and the empty set (never an error) for `n = 0` or empty input;
the selection is emitted in descending index position order, so on four
commits with committer timestamps {3,2,2,1}, `latest(all(), 2)` emits the
later-positioned timestamp-2 commit first and then the timestamp-3
commit. -/
theorem claim7_latest_semantics :
    (∀ (g : AncestryIndex) (e : ResolvedExpression) (k p : Nat),
      evalMem g (.latest e k) p = true → evalMem g e p = true) ∧
    (∀ (g : AncestryIndex) (e : ResolvedExpression) (p : Nat),
      evalMem g (.latest e 0) p = false) ∧
    (∀ (g : AncestryIndex) (e : ResolvedExpression) (k : Nat),
      ((Finset.range g.size).filter (fun p => evalMem g e p = true)).card ≤ k →
      ∀ p, p < g.size → evalMem g (.latest e k) p = evalMem g e p) ∧
    (∀ (g : AncestryIndex) (e : ResolvedExpression) (k : Nat),
      ((Finset.range g.size).filter
        (fun p => evalMem g (.latest e k) p = true)).card =
      min k ((Finset.range g.size).filter (fun p => evalMem g e p = true)).card) ∧
    (∀ (g : AncestryIndex) (e : ResolvedExpression) (k p q : Nat),
      evalMem g (.latest e k) p = true →
      q < g.size → evalMem g e q = true → evalMem g (.latest e k) q = false →
      latestKeyGT g p q = true) ∧
    (evalRevset latestIndex (.latest .all 0) = [] ∧
     evalRevset latestIndex (.latest .all 1) = [1] ∧
     evalRevset latestIndex (.latest .all 2) = [3, 1] ∧
     evalRevset latestIndex (.latest .all 3) = [3, 2, 1] ∧
     evalRevset latestIndex (.latest .all 4) = [4, 3, 2, 1] ∧
     evalRevset latestIndex (.latest .all 5) = [4, 3, 2, 1, 0] ∧
     evalRevset latestIndex (.latest allButRoot 5) = [4, 3, 2, 1] ∧
     evalRevset latestIndex (.latest .none 3) = []) := by
  refine ⟨?_, ?_, ?_, ?_, ?_,
    by decide, by decide, by decide, by decide, by decide, by decide, by decide,
    by decide⟩
  · intro g e k p h
    have h' : (evalMem g e p &&
        decide (countAbove g (fun q => evalMem g e q) p < k)) = true := h
    rw [Bool.and_eq_true] at h'
    exact h'.1
  · intro g e p
    show (evalMem g e p &&
      decide (countAbove g (fun q => evalMem g e q) p < 0)) = false
    simp
  · intro g e k hk p hp
    show (evalMem g e p &&
      decide (countAbove g (fun q => evalMem g e q) p < k)) = evalMem g e p
    cases he : evalMem g e p with
    | false => simp
    | true =>
      have hlt : countAbove g (fun q => evalMem g e q) p <
          ((Finset.range g.size).filter (fun r => evalMem g e r = true)).card := by
        have := countAbove_lt_card g (fun q => evalMem g e q) he hp
        simpa using this
      rw [decide_eq_true (Nat.lt_of_lt_of_le hlt hk)]
      rfl
  · intro g e k
    rw [latest_filter_eq g e k]
    have := latest_result_card g (fun q => evalMem g e q) k
    simpa using this
  · intro g e k p q hp hqr hqe hq
    have hp' : (evalMem g e p &&
        decide (countAbove g (fun r => evalMem g e r) p < k)) = true := hp
    rw [Bool.and_eq_true, decide_eq_true_iff] at hp'
    obtain ⟨hpe, hpk⟩ := hp'
    have hq' : (evalMem g e q &&
        decide (countAbove g (fun r => evalMem g e r) q < k)) = false := hq
    rw [hqe, Bool.true_and, decide_eq_false_iff_not] at hq'
    have hqk : k ≤ countAbove g (fun r => evalMem g e r) q := Nat.le_of_not_lt hq'
    have hne : p ≠ q := by
      intro h
      subst h
      exact hq' hpk
    rcases latestKeyGT_total g hne with h | h
    · exact h
    · exfalso
      have := countAbove_lt_of_keyGT g (fun r => evalMem g e r) hqe hqr h
      omega

/-- Witness for claim C7 at `latestIndex` with `all()` and count 5: the
candidate set has exactly 5 members, so every in-range position is selected
and the whole set is returned. -/
theorem claim7_latest_semantics_witness :
    (((Finset.range latestIndex.size).filter
        (fun p => evalMem latestIndex .all p = true)).card ≤ 5 ∧
     (2 : Nat) < latestIndex.size) ∧
    evalMem latestIndex (.latest .all 5) 2 = evalMem latestIndex .all 2 :=
  ⟨⟨by decide, by decide⟩,
   claim7_latest_semantics.2.2.1 latestIndex .all 5 (by decide) 2 (by decide)⟩

theorem satStep_subset (nbr : Nat → List Nat) (S : Finset Nat) :
    S ⊆ satStep nbr S :=
  Finset.subset_union_left

theorem satStep_bounded (nbr : Nat → List Nat) {n : Nat}
    (hnbr : ∀ p q, q ∈ nbr p → q < n) {S : Finset Nat}
    (hS : S ⊆ Finset.range n) : satStep nbr S ⊆ Finset.range n := by
  intro x hx
  unfold satStep at hx
  rw [Finset.mem_union] at hx
  rcases hx with hx | hx
  · exact hS hx
  · rw [Finset.mem_biUnion] at hx
    obtain ⟨p, _, hq⟩ := hx
    rw [List.mem_toFinset] at hq
    exact Finset.mem_range.mpr (hnbr p x hq)

theorem saturate_iterate_bounded (nbr : Nat → List Nat) {n : Nat}
    (hnbr : ∀ p q, q ∈ nbr p → q < n) {init : Finset Nat}
    (hinit : init ⊆ Finset.range n) :
    ∀ j, (satStep nbr)^[j] init ⊆ Finset.range n := by
  intro j
  induction j with
  | zero => exact hinit
  | succ m ih =>
    rw [Function.iterate_succ_apply']
    exact satStep_bounded nbr hnbr ih

theorem saturate_fixpoint (nbr : Nat → List Nat) (n : Nat) (init : Finset Nat)
    (hnbr : ∀ p q, q ∈ nbr p → q < n) (hinit : init ⊆ Finset.range n) :
    satStep nbr (saturate nbr n init) = saturate nbr n init := by
  classical
  have hstab : ∀ k, (satStep nbr)^[k + 1] init = (satStep nbr)^[k] init →
      ∀ d, (satStep nbr)^[k + d] init = (satStep nbr)^[k] init := by
    intro k hk d
    induction d with
    | zero => rfl
    | succ m ih =>
      have h1 : k + (m + 1) = (k + m) + 1 := by omega
      have e1 : (satStep nbr)^[k + 1] init =
          satStep nbr ((satStep nbr)^[k] init) :=
        Function.iterate_succ_apply' (satStep nbr) k init
      rw [h1, Function.iterate_succ_apply', ih, ← e1]
      exact hk
  have hex : ∃ k, k ≤ n ∧
      (satStep nbr)^[k + 1] init = (satStep nbr)^[k] init := by
    by_contra hc
    push_neg at hc
    have hgrow : ∀ j, j ≤ n + 1 → j ≤ ((satStep nbr)^[j] init).card := by
      intro j
      induction j with
      | zero => intro _; exact Nat.zero_le _
      | succ m ih =>
        intro hm
        have hm' : m ≤ n := by omega
        have hne := hc m hm'
        have hsub : (satStep nbr)^[m] init ⊆ (satStep nbr)^[m + 1] init := by
          rw [Function.iterate_succ_apply']
          exact satStep_subset nbr _
        have hss : (satStep nbr)^[m] init ⊂ (satStep nbr)^[m + 1] init :=
          HasSubset.Subset.ssubset_of_ne hsub (Ne.symm hne)
        have hcard := Finset.card_lt_card hss
        have := ih (by omega)
        omega
    have h1 := hgrow (n + 1) (Nat.le_refl _)
    have h2 : ((satStep nbr)^[n + 1] init).card ≤ n := by
      have := Finset.card_le_card (saturate_iterate_bounded nbr hnbr hinit (n + 1))
      rw [Finset.card_range] at this
      exact this
    omega
  obtain ⟨k, hk, hfix⟩ := hex
  unfold saturate
  have heq : (satStep nbr)^[n + 1] init = (satStep nbr)^[k] init := by
    have : n + 1 = k + (n + 1 - k) := by omega
    rw [this]
    exact hstab k hfix (n + 1 - k)
  have e1 : (satStep nbr)^[k + 1] init =
      satStep nbr ((satStep nbr)^[k] init) :=
    Function.iterate_succ_apply' (satStep nbr) k init
  rw [heq, ← e1]
  exact hfix

theorem saturate_contains_init (nbr : Nat → List Nat) (n : Nat)
    (init : Finset Nat) : init ⊆ saturate nbr n init := by
  unfold saturate
  have : ∀ j, init ⊆ (satStep nbr)^[j] init := by
    intro j
    induction j with
    | zero => exact Finset.Subset.refl init
    | succ m ih =>
      rw [Function.iterate_succ_apply']
      exact Finset.Subset.trans ih (satStep_subset nbr _)
  exact this (n + 1)

theorem saturate_closed (nbr : Nat → List Nat) (n : Nat) (init : Finset Nat)
    (hnbr : ∀ p q, q ∈ nbr p → q < n) (hinit : init ⊆ Finset.range n)
    {p q : Nat} (hp : p ∈ saturate nbr n init) (hq : q ∈ nbr p) :
    q ∈ saturate nbr n init := by
  rw [← saturate_fixpoint nbr n init hnbr hinit]
  unfold satStep
  rw [Finset.mem_union, Finset.mem_biUnion]
  exact Or.inr ⟨p, hp, List.mem_toFinset.mpr hq⟩

theorem saturate_minimal (nbr : Nat → List Nat) (n : Nat) (init : Finset Nat)
    (T : Finset Nat) (hT1 : init ⊆ T)
    (hT2 : ∀ p ∈ T, ∀ q ∈ nbr p, q ∈ T) : saturate nbr n init ⊆ T := by
  unfold saturate
  have : ∀ j, (satStep nbr)^[j] init ⊆ T := by
    intro j
    induction j with
    | zero => exact hT1
    | succ m ih =>
      rw [Function.iterate_succ_apply']
      intro x hx
      unfold satStep at hx
      rw [Finset.mem_union] at hx
      rcases hx with hx | hx
      · exact ih hx
      · rw [Finset.mem_biUnion] at hx
        obtain ⟨p, hp, hq⟩ := hx
        exact hT2 p (ih hp) x (List.mem_toFinset.mp hq)
  exact this (n + 1)

theorem reachNbr_lt_size (g : AncestryIndex) (hg : topoOk g = true)
    (dom : Nat → Bool) : ∀ p q, q ∈ reachNbr g dom p → q < g.size := by
  intro p q hq
  unfold reachNbr at hq
  rw [List.mem_filter, List.mem_append] at hq
  rcases hq.1 with h | h
  · have hp : p < g.size := mem_parentsOf_lt_size g h
    exact Nat.lt_trans (topoOk_parent_lt hg h) hp
  · exact ((mem_childrenOf g).mp h).1

/-- Claim C6: for all sets `sources` and `domain`, the denotation of
`Reachable{sources, domain}` is the smallest superset of
`sources ∩ domain` closed under adding any parent or child, within the
domain, of an already-included commit; consequently, on the history of
three disjoint subgraphs hanging off the root,
`reachable(c, all() ~ root())` called with any commit of one subgraph
returns exactly that subgraph's commits and none of the others. -/
theorem claim6_reachable_fixed_point :
    (∀ (g : AncestryIndex) (s d : ResolvedExpression), topoOk g = true →
      (((List.range g.size).filter
          (fun q => evalMem g s q && evalMem g d q)).toFinset ⊆
        saturate (reachNbr g (fun q => evalMem g d q)) g.size
          (((List.range g.size).filter
            (fun q => evalMem g s q && evalMem g d q)).toFinset)) ∧
      (∀ p ∈ saturate (reachNbr g (fun q => evalMem g d q)) g.size
          (((List.range g.size).filter
            (fun q => evalMem g s q && evalMem g d q)).toFinset),
        ∀ q ∈ reachNbr g (fun q0 => evalMem g d q0) p,
          q ∈ saturate (reachNbr g (fun q0 => evalMem g d q0)) g.size
            (((List.range g.size).filter
              (fun q0 => evalMem g s q0 && evalMem g d q0)).toFinset)) ∧
      (∀ T : Finset Nat,
        ((List.range g.size).filter
          (fun q => evalMem g s q && evalMem g d q)).toFinset ⊆ T →
        (∀ p ∈ T, ∀ q ∈ reachNbr g (fun q0 => evalMem g d q0) p, q ∈ T) →
        saturate (reachNbr g (fun q => evalMem g d q)) g.size
          (((List.range g.size).filter
            (fun q => evalMem g s q && evalMem g d q)).toFinset) ⊆ T) ∧
      (∀ p, evalMem g (.reachable s d) p =
        decide (p ∈ saturate (reachNbr g (fun q => evalMem g d q)) g.size
          (((List.range g.size).filter
            (fun q => evalMem g s q && evalMem g d q)).toFinset)))) ∧
    ((evalRevset reachIndex (.reachable (.commits [1]) allButRoot) = [3, 2, 1]) ∧
     (evalRevset reachIndex (.reachable (.commits [2]) allButRoot) = [3, 2, 1]) ∧
     (evalRevset reachIndex (.reachable (.commits [3]) allButRoot) = [3, 2, 1]) ∧
     (evalRevset reachIndex (.reachable (.commits [4]) allButRoot) = [6, 5, 4]) ∧
     (evalRevset reachIndex (.reachable (.commits [5]) allButRoot) = [6, 5, 4]) ∧
     (evalRevset reachIndex (.reachable (.commits [6]) allButRoot) = [6, 5, 4]) ∧
     (evalRevset reachIndex (.reachable (.commits [7]) allButRoot) =
       [13, 12, 11, 10, 9, 8, 7]) ∧
     (evalRevset reachIndex (.reachable (.commits [8]) allButRoot) =
       [13, 12, 11, 10, 9, 8, 7]) ∧
     (evalRevset reachIndex (.reachable (.commits [9]) allButRoot) =
       [13, 12, 11, 10, 9, 8, 7]) ∧
     (evalRevset reachIndex (.reachable (.commits [10]) allButRoot) =
       [13, 12, 11, 10, 9, 8, 7]) ∧
     (evalRevset reachIndex (.reachable (.commits [11]) allButRoot) =
       [13, 12, 11, 10, 9, 8, 7]) ∧
     (evalRevset reachIndex (.reachable (.commits [12]) allButRoot) =
       [13, 12, 11, 10, 9, 8, 7]) ∧
     (evalRevset reachIndex (.reachable (.commits [13]) allButRoot) =
       [13, 12, 11, 10, 9, 8, 7])) := by
  constructor
  · intro g s d hg
    have hnbr := reachNbr_lt_size g hg (fun q => evalMem g d q)
    have hinit : ((List.range g.size).filter
        (fun q => evalMem g s q && evalMem g d q)).toFinset ⊆
        Finset.range g.size := by
      intro x hx
      rw [List.mem_toFinset, List.mem_filter, List.mem_range] at hx
      exact Finset.mem_range.mpr hx.1
    refine ⟨saturate_contains_init _ _ _, ?_, ?_, fun p => rfl⟩
    · intro p hp q hq
      exact saturate_closed _ g.size _ hnbr hinit hp hq
    · intro T hT1 hT2
      exact saturate_minimal _ g.size _ T hT1 hT2
  · refine ⟨by decide, by decide, by decide, by decide, by decide, by decide,
      by decide, by decide, by decide, by decide, by decide, by decide, by decide⟩

/-- Witness for claim C6: the fixed-point characterization instantiated on
the disjoint-subgraph history with source commit 2 and domain
`all() ~ root()`: the sources-within-domain set is contained in the
result. -/
theorem claim6_reachable_fixed_point_witness :
    topoOk reachIndex = true ∧
    ((List.range reachIndex.size).filter
      (fun q => evalMem reachIndex (.commits [2]) q &&
        evalMem reachIndex allButRoot q)).toFinset ⊆
    saturate (reachNbr reachIndex (fun q => evalMem reachIndex allButRoot q))
      reachIndex.size
      (((List.range reachIndex.size).filter
        (fun q => evalMem reachIndex (.commits [2]) q &&
          evalMem reachIndex allButRoot q)).toFinset) :=
  ⟨by decide,
   (claim6_reachable_fixed_point.1 reachIndex (.commits [2]) allButRoot
     (by decide)).1⟩

theorem bfsWalk_sound (nbr : Nat → List Nat) (R : Nat → Prop)
    (hclosed : ∀ x y, R x → y ∈ nbr x → R y) :
    ∀ (fuel : Nat) (queue vis : List Nat),
      (∀ x ∈ queue, R x) → (∀ x ∈ vis, R x) →
      ∀ x ∈ bfsWalk nbr fuel queue vis, R x := by
  intro fuel
  induction fuel with
  | zero =>
    intro queue vis _ hv x hx
    rw [show bfsWalk nbr 0 queue vis = vis.reverse from rfl, List.mem_reverse] at hx
    exact hv x hx
  | succ f ih =>
    intro queue vis hq hv x hx
    cases queue with
    | nil =>
      rw [show bfsWalk nbr (f + 1) [] vis = vis.reverse from rfl,
        List.mem_reverse] at hx
      exact hv x hx
    | cons q rest =>
      rw [show bfsWalk nbr (f + 1) (q :: rest) vis =
          (if q ∈ vis then bfsWalk nbr f rest vis
           else bfsWalk nbr f (rest ++ nbr q) (q :: vis)) from rfl] at hx
      by_cases hqv : q ∈ vis
      · rw [if_pos hqv] at hx
        exact ih rest vis (fun y hy => hq y (List.mem_cons_of_mem q hy)) hv x hx
      · rw [if_neg hqv] at hx
        have hRq : R q := hq q (List.mem_cons_self q rest)
        refine ih (rest ++ nbr q) (q :: vis) ?_ ?_ x hx
        · intro y hy
          rw [List.mem_append] at hy
          rcases hy with hy | hy
          · exact hq y (List.mem_cons_of_mem q hy)
          · exact hclosed q y hRq hy
        · intro y hy
          rw [List.mem_cons] at hy
          rcases hy with rfl | hy
          · exact hRq
          · exact hv y hy

theorem bfsWalk_complete (nbr : Nat → List Nat) (n : Nat)
    (hnbr : ∀ p q, q ∈ nbr p → q < n) :
    ∀ (fuel : Nat) (queue vis : List Nat),
      (∀ x ∈ queue, x < n) →
      (∀ x ∈ vis, ∀ y ∈ nbr x, y ∈ vis ∨ y ∈ queue) →
      queue.length + ((Finset.range n).filter (fun p => p ∉ vis)).sum
        (fun p => 1 + (nbr p).length) ≤ fuel →
      (∀ x ∈ queue, x ∈ bfsWalk nbr fuel queue vis) ∧
      (∀ x ∈ vis, x ∈ bfsWalk nbr fuel queue vis) ∧
      (∀ x ∈ bfsWalk nbr fuel queue vis, ∀ y ∈ nbr x,
        y ∈ bfsWalk nbr fuel queue vis) := by
  intro fuel
  induction fuel with
  | zero =>
    intro queue vis hq hinv hfuel
    have hlen : queue.length = 0 := by omega
    have hq0 : queue = [] := List.length_eq_zero.mp hlen
    subst hq0
    rw [show bfsWalk nbr 0 [] vis = vis.reverse from rfl]
    refine ⟨fun x hx => absurd hx (List.not_mem_nil x), ?_, ?_⟩
    · intro x hx
      exact List.mem_reverse.mpr hx
    · intro x hx y hy
      rw [List.mem_reverse] at hx
      rcases hinv x hx y hy with h | h
      · exact List.mem_reverse.mpr h
      · exact absurd h (List.not_mem_nil y)
  | succ f ih =>
    intro queue vis hq hinv hfuel
    cases queue with
    | nil =>
      rw [show bfsWalk nbr (f + 1) [] vis = vis.reverse from rfl]
      refine ⟨fun x hx => absurd hx (List.not_mem_nil x), ?_, ?_⟩
      · intro x hx
        exact List.mem_reverse.mpr hx
      · intro x hx y hy
        rw [List.mem_reverse] at hx
        rcases hinv x hx y hy with h | h
        · exact List.mem_reverse.mpr h
        · exact absurd h (List.not_mem_nil y)
    | cons q rest =>
      rw [show bfsWalk nbr (f + 1) (q :: rest) vis =
          (if q ∈ vis then bfsWalk nbr f rest vis
           else bfsWalk nbr f (rest ++ nbr q) (q :: vis)) from rfl]
      by_cases hqv : q ∈ vis
      · rw [if_pos hqv]
        have hfuel' : rest.length + ((Finset.range n).filter
            (fun p => p ∉ vis)).sum (fun p => 1 + (nbr p).length) ≤ f := by
          rw [List.length_cons] at hfuel
          omega
        obtain ⟨ihq, ihv, ihc⟩ := ih rest vis
          (fun y hy => hq y (List.mem_cons_of_mem q hy))
          (fun x hx y hy => by
            rcases hinv x hx y hy with h | h
            · exact Or.inl h
            · rw [List.mem_cons] at h
              rcases h with rfl | h
              · exact Or.inl hqv
              · exact Or.inr h)
          hfuel'
        refine ⟨?_, ihv, ihc⟩
        intro x hx
        rw [List.mem_cons] at hx
        rcases hx with rfl | hx
        · exact ihv x hqv
        · exact ihq x hx
      · rw [if_neg hqv]
        have hqn : q < n := hq q (List.mem_cons_self q rest)
        have hfilter : (Finset.range n).filter (fun p => p ∉ vis) =
            insert q ((Finset.range n).filter (fun p => p ∉ (q :: vis))) := by
          ext x
          rw [Finset.mem_insert, Finset.mem_filter, Finset.mem_filter,
            Finset.mem_range]
          constructor
          · rintro ⟨hx1, hx2⟩
            by_cases hxq : x = q
            · exact Or.inl hxq
            · refine Or.inr ⟨hx1, fun h => ?_⟩
              rw [List.mem_cons] at h
              rcases h with h | h
              · exact hxq h
              · exact hx2 h
          · rintro (rfl | ⟨hx1, hx2⟩)
            · exact ⟨hqn, hqv⟩
            · exact ⟨hx1, fun h => hx2 (List.mem_cons_of_mem q h)⟩
        have hqnotmem : q ∉ (Finset.range n).filter (fun p => p ∉ (q :: vis)) := by
          rw [Finset.mem_filter]
          rintro ⟨_, h⟩
          exact h (List.mem_cons_self q vis)
        have hsum : ((Finset.range n).filter (fun p => p ∉ vis)).sum
            (fun p => 1 + (nbr p).length) =
            (1 + (nbr q).length) +
            ((Finset.range n).filter (fun p => p ∉ (q :: vis))).sum
              (fun p => 1 + (nbr p).length) := by
          rw [hfilter, Finset.sum_insert hqnotmem]
        have hfuel' : (rest ++ nbr q).length +
            ((Finset.range n).filter (fun p => p ∉ (q :: vis))).sum
              (fun p => 1 + (nbr p).length) ≤ f := by
          rw [List.length_append]
          rw [List.length_cons, hsum] at hfuel
          omega
        obtain ⟨ihq, ihv, ihc⟩ := ih (rest ++ nbr q) (q :: vis)
          (fun y hy => by
            rw [List.mem_append] at hy
            rcases hy with hy | hy
            · exact hq y (List.mem_cons_of_mem q hy)
            · exact hnbr q y hy)
          (fun x hx y hy => by
            rw [List.mem_cons] at hx
            rcases hx with rfl | hx
            · exact Or.inr (List.mem_append_right rest hy)
            · rcases hinv x hx y hy with h | h
              · exact Or.inl (List.mem_cons_of_mem q h)
              · rw [List.mem_cons] at h
                rcases h with rfl | h
                · exact Or.inl (List.mem_cons_self y vis)
                · exact Or.inr (List.mem_append_left (nbr q) h))
          hfuel'
        refine ⟨?_, ?_, ihc⟩
        · intro x hx
          rw [List.mem_cons] at hx
          rcases hx with rfl | hx
          · exact ihv x (List.mem_cons_self x vis)
          · exact ihq x (List.mem_append_left (nbr q) hx)
        · intro x hx
          exact ihv x (List.mem_cons_of_mem q hx)

theorem ancFuel_closed_mem (g : AncestryIndex) {B : List Nat}
    (hB : ∀ x ∈ B, ∀ y ∈ parentsOf g x, y ∈ B) :
    ∀ (f : Nat) {a b : Nat}, ancestorFuel g f a b = true → b ∈ B → a ∈ B := by
  intro f
  induction f with
  | zero =>
    intro a b h hb
    rw [eq_of_beq h]
    exact hb
  | succ m ih =>
    intro a b h hb
    simp only [ancestorFuel, Bool.or_eq_true, List.any_eq_true] at h
    rcases h with h | ⟨q, hq, hrec⟩
    · rw [eq_of_beq h]
      exact hb
    · exact ih hrec (hB b hb q hq)

theorem descFuel_closed_mem (g : AncestryIndex) {B : List Nat}
    (hB : ∀ x ∈ B, ∀ y ∈ childrenOf g x, y ∈ B) :
    ∀ (f : Nat) {r x : Nat}, ancestorFuel g f r x = true → r ∈ B → x ∈ B := by
  intro f
  induction f with
  | zero =>
    intro r x h hr
    rw [← eq_of_beq h]
    exact hr
  | succ m ih =>
    intro r x h hr
    simp only [ancestorFuel, Bool.or_eq_true, List.any_eq_true] at h
    rcases h with h | ⟨q, hq, hrec⟩
    · rw [← eq_of_beq h]
      exact hr
    · have hqB : q ∈ B := ih hrec hr
      have hxc : x ∈ childrenOf g q :=
        (mem_childrenOf g).mpr ⟨mem_parentsOf_lt_size g hq, hq⟩
      exact hB q hqB x hxc

theorem bfsAncestors_mem (g : AncestryIndex) (hg : topoOk g = true)
    (starts : List Nat) (hstarts : ∀ x ∈ starts, x < g.size) (p : Nat) :
    p ∈ bfsAncestors g starts ↔ ∃ h ∈ starts, is_ancestor g p h = true := by
  have hnbr : ∀ x q, q ∈ parentsOf g x → q < g.size := fun x q hq =>
    Nat.lt_trans (topoOk_parent_lt hg hq) (mem_parentsOf_lt_size g hq)
  constructor
  · intro hp
    refine bfsWalk_sound (parentsOf g)
      (fun x => ∃ h ∈ starts, is_ancestor g x h = true) ?_ _ starts [] ?_ ?_ p hp
    · intro x y hx hy
      obtain ⟨h, hh, hanc⟩ := hx
      exact ⟨h, hh, is_ancestor_trans g hg
        (is_ancestor_step g hg hy (is_ancestor_refl g y)) hanc⟩
    · intro x hx
      exact ⟨x, hx, is_ancestor_refl g x⟩
    · intro x hx
      exact absurd hx (List.not_mem_nil x)
  · rintro ⟨h, hh, hanc⟩
    have hfuel0 : starts.length + ((Finset.range g.size).filter
        (fun q => q ∉ ([] : List Nat))).sum
        (fun q => 1 + (parentsOf g q).length) ≤
        bfsFuel (parentsOf g) g.size starts := by
      have hfe : (Finset.range g.size).filter (fun q => q ∉ ([] : List Nat)) =
          Finset.range g.size :=
        Finset.filter_true_of_mem (fun x _ => List.not_mem_nil x)
      rw [hfe]
      exact Nat.le_refl _
    obtain ⟨ihq, _, ihc⟩ := bfsWalk_complete (parentsOf g) g.size hnbr
      (bfsFuel (parentsOf g) g.size starts) starts []
      hstarts (fun x hx => absurd hx (List.not_mem_nil x)) hfuel0
    exact ancFuel_closed_mem g ihc h hanc (ihq h hh)

theorem bfsDescendants_mem (g : AncestryIndex) (hg : topoOk g = true)
    (starts : List Nat) (hstarts : ∀ x ∈ starts, x < g.size) (p : Nat) :
    p ∈ bfsDescendants g starts ↔ ∃ r ∈ starts, is_ancestor g r p = true := by
  have hnbr : ∀ x q, q ∈ childrenOf g x → q < g.size := fun x q hq =>
    ((mem_childrenOf g).mp hq).1
  constructor
  · intro hp
    refine bfsWalk_sound (childrenOf g)
      (fun x => ∃ r ∈ starts, is_ancestor g r x = true) ?_ _ starts [] ?_ ?_ p hp
    · intro x y hx hy
      obtain ⟨r, hr, hanc⟩ := hx
      have hxy : is_ancestor g x y = true :=
        is_ancestor_step g hg ((mem_childrenOf g).mp hy).2 (is_ancestor_refl g x)
      exact ⟨r, hr, is_ancestor_trans g hg hanc hxy⟩
    · intro x hx
      exact ⟨x, hx, is_ancestor_refl g x⟩
    · intro x hx
      exact absurd hx (List.not_mem_nil x)
  · rintro ⟨r, hr, hanc⟩
    have hfuel0 : starts.length + ((Finset.range g.size).filter
        (fun q => q ∉ ([] : List Nat))).sum
        (fun q => 1 + (childrenOf g q).length) ≤
        bfsFuel (childrenOf g) g.size starts := by
      have hfe : (Finset.range g.size).filter (fun q => q ∉ ([] : List Nat)) =
          Finset.range g.size :=
        Finset.filter_true_of_mem (fun x _ => List.not_mem_nil x)
      rw [hfe]
      exact Nat.le_refl _
    obtain ⟨ihq, _, ihc⟩ := bfsWalk_complete (childrenOf g) g.size hnbr
      (bfsFuel (childrenOf g) g.size starts) starts []
      hstarts (fun x hx => absurd hx (List.not_mem_nil x)) hfuel0
    exact descFuel_closed_mem g ihc p hanc (ihq r hr)

/-- Claim C8: `Ancestors{H, depth_limit = n}` yields exactly the first `n`
commits encountered in breadth-first order starting from `H` (`H` counted
first, highest position first), with `n = 0` yielding the empty set, and
`Descendants{R, depth_limit = n}` has the symmetric semantics following
children; the breadth-first enumeration underlying the limit provably
enumerates exactly the unlimited ancestor (resp. descendant) closure, so
the limit truncates a commit count, not a generation count. -/
theorem claim8_depth_limit :
    (∀ (g : AncestryIndex) (e : ResolvedExpression),
      evalRevset g (.ancestors e (.some 0)) = []) ∧
    (∀ (g : AncestryIndex) (e : ResolvedExpression),
      evalRevset g (.descendants e (.some 0)) = []) ∧
    (∀ (g : AncestryIndex) (e : ResolvedExpression) (k p : Nat),
      evalMem g (.ancestors e (.some k)) p = true ↔
      p ∈ (bfsAncestors g
        (((List.range g.size).filter (fun h => evalMem g e h)).reverse)).take k) ∧
    (∀ (g : AncestryIndex) (e : ResolvedExpression) (k p : Nat),
      evalMem g (.descendants e (.some k)) p = true ↔
      p ∈ (bfsDescendants g
        ((List.range g.size).filter (fun r => evalMem g e r))).take k) ∧
    (∀ (g : AncestryIndex) (e : ResolvedExpression), topoOk g = true → ∀ p,
      (p ∈ bfsAncestors g
        (((List.range g.size).filter (fun h => evalMem g e h)).reverse) ↔
       evalMem g (.ancestors e Option.none) p = true)) ∧
    (∀ (g : AncestryIndex) (e : ResolvedExpression), topoOk g = true → ∀ p,
      (p ∈ bfsDescendants g
        ((List.range g.size).filter (fun r => evalMem g e r)) ↔
       evalMem g (.descendants e Option.none) p = true)) ∧
    (evalRevset rangeIndex (.ancestors (.commits [2]) (.some 0)) = [] ∧
     evalRevset rangeIndex (.ancestors (.commits [3]) (.some 1)) = [3] ∧
     evalRevset rangeIndex (.ancestors (.commits [3]) (.some 3)) = [3, 2, 1] ∧
     evalRevset descIndex (.descendants (.commits [2]) (.some 0)) = [] ∧
     evalRevset descIndex (.descendants (.commits [3]) (.some 1)) = [3] ∧
     evalRevset descIndex (.descendants (.commits [3]) (.some 3)) = [6, 5, 3]) := by
  refine ⟨?_, ?_, ?_, ?_, ?_, ?_, by decide, by decide, by decide, by decide,
    by decide, by decide⟩
  · intro g e
    unfold evalRevset emit
    have h : ∀ p ∈ List.range g.size,
        evalMem g (.ancestors e (.some 0)) p = false := fun p _ => rfl
    rw [List.filter_congr h, List.filter_false, List.reverse_nil]
  · intro g e
    unfold evalRevset emit
    have h : ∀ p ∈ List.range g.size,
        evalMem g (.descendants e (.some 0)) p = false := fun p _ => rfl
    rw [List.filter_congr h, List.filter_false, List.reverse_nil]
  · intro g e k p
    show ((bfsAncestors g (((List.range g.size).filter
      (fun h => evalMem g e h)).reverse)).take k).contains p = true ↔ _
    simp
  · intro g e k p
    show ((bfsDescendants g ((List.range g.size).filter
      (fun r => evalMem g e r))).take k).contains p = true ↔ _
    simp
  · intro g e hg p
    have hstarts : ∀ x ∈ ((List.range g.size).filter
        (fun h => evalMem g e h)).reverse, x < g.size := by
      intro x hx
      rw [List.mem_reverse, List.mem_filter, List.mem_range] at hx
      exact hx.1
    rw [bfsAncestors_mem g hg _ hstarts p]
    show _ ↔ ((List.range g.size).any
      (fun h => evalMem g e h && is_ancestor g p h)) = true
    rw [List.any_eq_true]
    constructor
    · rintro ⟨h, hh, hanc⟩
      rw [List.mem_reverse, List.mem_filter] at hh
      refine ⟨h, hh.1, ?_⟩
      rw [Bool.and_eq_true]
      exact ⟨hh.2, hanc⟩
    · rintro ⟨h, hh, hx⟩
      rw [Bool.and_eq_true] at hx
      refine ⟨h, ?_, hx.2⟩
      rw [List.mem_reverse, List.mem_filter]
      exact ⟨hh, hx.1⟩
  · intro g e hg p
    have hstarts : ∀ x ∈ (List.range g.size).filter
        (fun r => evalMem g e r), x < g.size := by
      intro x hx
      rw [List.mem_filter, List.mem_range] at hx
      exact hx.1
    rw [bfsDescendants_mem g hg _ hstarts p]
    show _ ↔ ((List.range g.size).any
      (fun r => evalMem g e r && is_ancestor g r p)) = true
    rw [List.any_eq_true]
    constructor
    · rintro ⟨r, hr, hanc⟩
      rw [List.mem_filter] at hr
      refine ⟨r, hr.1, ?_⟩
      rw [Bool.and_eq_true]
      exact ⟨hr.2, hanc⟩
    · rintro ⟨r, hr, hx⟩
      rw [Bool.and_eq_true] at hx
      refine ⟨r, ?_, hx.2⟩
      rw [List.mem_filter]
      exact ⟨hr, hx.1⟩

/-- Witness for claim C8: the breadth-first ancestor enumeration from
commit 4 of the range-test graph contains the root exactly as the unlimited
`Ancestors` operator does. -/
theorem claim8_depth_limit_witness :
    topoOk rangeIndex = true ∧
    (0 ∈ bfsAncestors rangeIndex
      (((List.range rangeIndex.size).filter
        (fun h => evalMem rangeIndex (.commits [4]) h)).reverse) ↔
     evalMem rangeIndex (.ancestors (.commits [4]) Option.none) 0 = true) :=
  ⟨by decide,
   (claim8_depth_limit.2.2.2.2.1 rangeIndex (.commits [4]) (by decide)) 0⟩
